import Mathlib

/-!
# Verification of `sum_positive_differences`

The repository computes, for an integer sequence `a`, the sum of `a[j] - a[i]`
over all index pairs `i < j` with `a[j] > a[i]`.  It contains a naive O(n²)
double loop (`calculate_positive_differences_naive`), an O(n log n) algorithm
based on coordinate compression plus a dual count/sum Fenwick tree
(`calculate_positive_differences_optimized`, class `FenwickTree` in
`complete_solution.py`), a variant backed by a dictionary-based
`CompactFenwickTree` (`calculate_positive_differences_memory_optimized` in
`memory_optimized_solution.py`), and a chunked variant
(`calculate_positive_differences_chunked`).

This file shallowly embeds those functions over `List Int` and proves or
refutes the specification claims about them.  Python's unbounded integers are
`Int`/`Nat`; the Fenwick `while` loops are embedded with an explicit fuel
argument that provably dominates the loop's iteration count, so that all
definitions compute by structural recursion.
-/

/-- Translation of `idx & (-idx)` from the Python source (two's complement): the lowest set
bit of `idx`, and `0` for `idx = 0`.  Over `Nat` the same value is
`idx - (idx &&& (idx - 1))`, since `idx &&& (idx - 1)` clears the lowest set
bit. -/
def lowbit (i : Nat) : Nat := i - (i &&& (i - 1))

theorem land_two_mul_add_one (j : Nat) : (2 * j + 1) &&& (2 * j) = 2 * j := by
  refine Nat.eq_of_testBit_eq fun i => ?_
  cases i with
  | zero =>
    have h1 : (2 * j + 1) % 2 = 1 := by omega
    have h2 : (2 * j) % 2 = 0 := by omega
    simp [Nat.testBit_land, Nat.testBit_zero, h1, h2]
  | succ i =>
    have h1 : (2 * j + 1) / 2 = j := by omega
    have h2 : (2 * j) / 2 = j := by omega
    rw [Nat.testBit_land, Nat.testBit_add_one, Nat.testBit_add_one, h1, h2, Bool.and_self]

theorem land_two_mul_pred (j : Nat) (hj : 0 < j) :
    (2 * j) &&& (2 * j - 1) = 2 * (j &&& (j - 1)) := by
  refine Nat.eq_of_testBit_eq fun i => ?_
  cases i with
  | zero =>
    have h2 : (2 * j) % 2 = 0 := by omega
    have h3 : (2 * (j &&& (j - 1))) % 2 = 0 := by omega
    simp [Nat.testBit_land, Nat.testBit_zero, h2, h3]
  | succ i =>
    have h1 : (2 * j) / 2 = j := by omega
    have h2 : (2 * j - 1) / 2 = j - 1 := by omega
    have h3 : (2 * (j &&& (j - 1))) / 2 = j &&& (j - 1) := by omega
    rw [Nat.testBit_land, Nat.testBit_add_one, Nat.testBit_add_one, Nat.testBit_add_one,
      h1, h2, h3, Nat.testBit_land]

theorem lowbit_odd (j : Nat) : lowbit (2 * j + 1) = 1 := by
  have h : (2 * j + 1) - 1 = 2 * j := by omega
  rw [lowbit, h, land_two_mul_add_one]
  omega

theorem lowbit_even (j : Nat) (hj : 0 < j) : lowbit (2 * j) = 2 * lowbit j := by
  have hle : j &&& (j - 1) ≤ j := Nat.and_le_left
  rw [lowbit, lowbit, land_two_mul_pred j hj]
  omega

theorem lowbit_le (i : Nat) : lowbit i ≤ i := Nat.sub_le _ _

/-- Every positive number is an odd multiple of a power of two, and `lowbit`
returns exactly that power of two. -/
theorem lowbit_decomp : ∀ j : Nat, 0 < j → ∃ u b : Nat, j = (2 * b + 1) * 2 ^ u ∧ lowbit j = 2 ^ u := by
  intro j
  induction j using Nat.strong_induction_on with
  | _ j ih =>
    intro hj
    rcases Nat.even_or_odd j with ⟨t, ht⟩ | ⟨t, ht⟩
    · have hj2 : j = 2 * t := by omega
      have ht0 : 0 < t := by omega
      have htlt : t < j := by omega
      obtain ⟨u, b, h1, h2⟩ := ih t htlt ht0
      refine ⟨u + 1, b, ?_, ?_⟩
      · rw [hj2, h1]; ring
      · rw [hj2, lowbit_even t ht0, h2, pow_succ]; ring
    · exact ⟨0, t, by omega, by rw [ht, lowbit_odd]; omega⟩

theorem lowbit_pos {i : Nat} (hi : 0 < i) : 0 < lowbit i := by
  obtain ⟨u, _, _, h2⟩ := lowbit_decomp i hi
  rw [h2]
  exact Nat.pos_pow_of_pos u (by omega)

/-- Adding a multiple of `2 ^ k` above `s < 2 ^ k` does not change the lowest
set bit. -/
theorem lowbit_mul_pow_add (k : Nat) :
    ∀ a s : Nat, 0 < s → s < 2 ^ k → lowbit (a * 2 ^ k + s) = lowbit s := by
  induction k with
  | zero => intro a s hs hlt; omega
  | succ k ih =>
    intro a s hs hlt
    rcases Nat.even_or_odd s with ⟨t, ht⟩ | ⟨t, ht⟩
    · have hs2 : s = 2 * t := by omega
      have ht0 : 0 < t := by omega
      have htlt : t < 2 ^ k := by
        have : 2 ^ (k + 1) = 2 * 2 ^ k := by rw [pow_succ]; ring
        omega
      have hform : a * 2 ^ (k + 1) + s = 2 * (a * 2 ^ k + t) := by
        rw [hs2, pow_succ]; ring
      rw [hform, lowbit_even _ (by positivity), ih a t ht0 htlt, hs2,
        lowbit_even t ht0]
    · have hform : a * 2 ^ (k + 1) + s = 2 * (a * 2 ^ k + t) + 1 := by
        rw [ht, pow_succ]; ring
      rw [hform, lowbit_odd, ht, lowbit_odd]

/-- Inside an aligned window of length `2 ^ k`, a point plus its lowest set
bit stays inside the window. -/
theorem add_lowbit_le_pow (k : Nat) : ∀ s : Nat, 0 < s → s < 2 ^ k → s + lowbit s ≤ 2 ^ k := by
  induction k with
  | zero => intro s hs hlt; omega
  | succ k ih =>
    intro s hs hlt
    have hp : 2 ^ (k + 1) = 2 * 2 ^ k := by rw [pow_succ]; ring
    rcases Nat.even_or_odd s with ⟨t, ht⟩ | ⟨t, ht⟩
    · have hs2 : s = 2 * t := by omega
      have ht0 : 0 < t := by omega
      have htlt : t < 2 ^ k := by omega
      have := ih t ht0 htlt
      rw [hs2, lowbit_even t ht0]
      omega
    · have hs2 : s = 2 * t + 1 := by omega
      rw [hs2, lowbit_odd]
      omega

theorem pow_le_lowbit {k a : Nat} (ha : 0 < a) (hdvd : 2 ^ k ∣ a) : 2 ^ k ≤ lowbit a := by
  obtain ⟨u, b, h1, h2⟩ := lowbit_decomp a ha
  rw [h2]
  refine Nat.pow_le_pow_right (by omega) ?_
  by_contra hku
  have huk : u + 1 ≤ k := by omega
  obtain ⟨c, hc⟩ := hdvd
  have hsplit : 2 ^ k = 2 ^ u * 2 ^ (k - u) := by
    rw [← pow_add]
    congr 1
    omega
  have hcancel : 2 * b + 1 = 2 ^ (k - u) * c := by
    have h2u : 0 < 2 ^ u := Nat.pos_pow_of_pos u (by omega)
    have : (2 * b + 1) * 2 ^ u = 2 ^ u * (2 ^ (k - u) * c) := by
      rw [← h1, hc, hsplit]; ring
    have := Nat.eq_of_mul_eq_mul_left h2u (by linarith [this] : 2 ^ u * (2 * b + 1) = 2 ^ u * (2 ^ (k - u) * c))
    omega
  have hku1 : 1 ≤ k - u := by omega
  have hsplit2 : 2 ^ (k - u) = 2 * 2 ^ (k - u - 1) := by
    rw [← pow_succ']
    congr 1
    omega
  have heven : 2 ∣ 2 ^ (k - u) * c := by
    rw [hsplit2]
    exact Dvd.intro (2 ^ (k - u - 1) * c) (by ring)
  omega

theorem lowbit_le_of_lt_pow {k m : Nat} (hm : 0 < m) (hlt : m < 2 ^ (k + 1)) :
    lowbit m ≤ 2 ^ k := by
  obtain ⟨u, b, h1, h2⟩ := lowbit_decomp m hm
  rw [h2]
  refine Nat.pow_le_pow_right (by omega) ?_
  have h2u : 2 ^ u ≤ m := by
    calc 2 ^ u = 1 * 2 ^ u := by ring
      _ ≤ (2 * b + 1) * 2 ^ u := Nat.mul_le_mul_right _ (by omega)
      _ = m := h1.symm
  have : 2 ^ u < 2 ^ (k + 1) := lt_of_le_of_lt h2u hlt
  have := (Nat.pow_lt_pow_iff_right (a := 2) (by omega)).mp this
  omega

/-- The Fenwick cover interval of `m` is `(m - lowbit m, m]`.  If it properly
contains `j` (with `j < m`), then it also contains `j + lowbit j`:
the next node of the update chain starting at `j` does not overshoot `m`. -/
theorem cover_extend {j m : Nat} (h1 : m - lowbit m < j) (h2 : j < m) :
    j + lowbit j ≤ m := by
  have hm : 0 < m := by omega
  obtain ⟨t, c, hmeq, hlbm⟩ := lowbit_decomp m hm
  have hEt : (2 * c + 1) * 2 ^ t = c * 2 ^ (t + 1) + 2 ^ t := by ring
  have ha : m - lowbit m = c * 2 ^ (t + 1) := by
    rw [hlbm, hmeq]
    omega
  set a := c * 2 ^ (t + 1) with ha_def
  have hs_pos : a < j := by omega
  set s := j - a with hs_def
  have hs1 : 0 < s := by omega
  have hs2 : s < 2 ^ t := by
    have hmas : m = a + 2 ^ t := by rw [hmeq]; omega
    omega
  have hlbj : lowbit j = lowbit s := by
    have : j = c * 2 ^ (t + 1) + s := by omega
    rw [this]
    exact lowbit_mul_pow_add (t + 1) c s hs1 (by
      have : 2 ^ (t + 1) = 2 * 2 ^ t := by rw [pow_succ]; ring
      omega)
  have hbound := add_lowbit_le_pow t s hs1 hs2
  have hmas : m = a + 2 ^ t := by rw [hmeq]; omega
  omega

/-- If the update chain starting at `j` has already passed node `m`'s cover
interval start (`j ≤ m - lowbit m`) while `j`'s next chain node is at most
`m`, that next node is still at most `m - lowbit m`: cover intervals are
laminar. -/
theorem cover_mono {j m : Nat} (hj : 0 < j) (h1 : j ≤ m - lowbit m)
    (h2 : j + lowbit j ≤ m) : j + lowbit j ≤ m - lowbit m := by
  by_contra hcon
  obtain ⟨u, b, hjeq, hlbj⟩ := lowbit_decomp j hj
  have hm : 0 < m := by
    have := lowbit_pos hj
    omega
  obtain ⟨t, c, hmeq, hlbm⟩ := lowbit_decomp m hm
  have hEt : (2 * c + 1) * 2 ^ t = c * 2 ^ (t + 1) + 2 ^ t := by ring
  have ha : m - lowbit m = c * 2 ^ (t + 1) := by
    rw [hlbm, hmeq]
    omega
  set a := c * 2 ^ (t + 1) with ha_def
  have haj : j ≤ a := by omega
  have halt : a < j + 2 ^ u := by rw [← hlbj]; omega
  -- `lowbit a ≤ 2 ^ u`
  have hlba : lowbit a ≤ 2 ^ u := by
    rcases Nat.eq_or_lt_of_le haj with heq | hlt
    · rw [← heq, hlbj]
    · set e := a - j with he_def
      have he1 : 0 < e := by omega
      have he2 : e < 2 ^ u := by omega
      have : a = (2 * b + 1) * 2 ^ u + e := by rw [← hjeq]; omega
      rw [this, lowbit_mul_pow_add u (2 * b + 1) e he1 he2]
      have := lowbit_le e
      omega
  -- `2 ^ (t + 1) ≤ lowbit a`
  have hdvda : 2 ^ (t + 1) ∣ a := Dvd.intro c (by rw [ha_def]; ring)
  have ha0 : 0 < a := by omega
  have hpow := pow_le_lowbit ha0 hdvda
  have htu : t + 1 ≤ u := by
    have : 2 ^ (t + 1) ≤ 2 ^ u := le_trans hpow hlba
    exact (Nat.pow_le_pow_iff_right (by omega)).mp this
  -- the gap `d`
  set d := (j + 2 ^ u) - a with hd_def
  have hd1 : 0 < d := by omega
  have hmas : m = a + 2 ^ t := by rw [hmeq]; omega
  have hd2 : d ≤ 2 ^ t := by omega
  have hdvd2 : 2 ^ (t + 1) ∣ j + 2 ^ u := by
    have hsum : j + 2 ^ u = (b + 1) * 2 ^ (u + 1) := by
      rw [hjeq, pow_succ]; ring
    rw [hsum]
    exact Dvd.dvd.mul_left (pow_dvd_pow 2 (by omega)) _
  have hdvdd : 2 ^ (t + 1) ∣ d := Nat.dvd_sub' hdvd2 hdvda
  have hled := Nat.le_of_dvd hd1 hdvdd
  have : 2 ^ (t + 1) = 2 * 2 ^ t := by rw [pow_succ]; ring
  omega

/-! ## The Fenwick tree loops

Both `FenwickTree` (dense, `complete_solution.py` lines 23-55) and
`CompactFenwickTree` (dictionary-backed, `memory_optimized_solution.py` lines
24-58) use the same loop shapes: update walks `idx → idx + (idx & -idx)`
while `idx` is at most a bound (the tree size, resp. `max_idx + 1000`), and
prefix query walks `idx → idx - (idx & -idx)` while `idx > 0`.  The loops are
embedded with a fuel argument that dominates the iteration count (update
increases `idx` by at least 1 per step, query decreases it by at least 1), so
the definitions compute by structural recursion; the characterization lemmas
below are independent of the fuel as long as it is sufficient. -/

/-- One pointwise tree-cell increment, `tree[idx] += c`. -/
def bump (t : Nat → Int) (idx : Nat) (c : Int) : Nat → Int :=
  fun m => if m = idx then t m + c else t m

/-- Body of the update `while` loop: starting at `idx`, add `c` at every node
of the chain `idx, idx + lowbit idx, …` while the node is positive and at
most `bound`.  The `0 < idx` conjunct is vacuous at every call site (ranks
are ≥ 1 and the chain only increases); the dense Python loop omits it and
would simply never terminate on `idx = 0`. -/
def updGo (bound : Nat) (c : Int) : Nat → Nat → (Nat → Int) → Nat → Int
  | 0, _, t => t
  | fuel+1, idx, t =>
    if 0 < idx ∧ idx ≤ bound then updGo bound c fuel (idx + lowbit idx) (bump t idx c) else t

/-- The update loop with adequate fuel (`idx` grows by at least 1 per
iteration, so `bound + 1 - idx` iterations suffice). -/
def fenwickUpdate (bound : Nat) (c : Int) (idx : Nat) (t : Nat → Int) : Nat → Int :=
  updGo bound c (bound + 1 - idx) idx t

/-- Body of the prefix-query `while idx > 0` loop, accumulating `acc + t idx`
along the chain `idx, idx - lowbit idx, …`. -/
def queryGo (t : Nat → Int) : Nat → Nat → Int → Int
  | 0, _, acc => acc
  | fuel+1, idx, acc => if 0 < idx then queryGo t fuel (idx - lowbit idx) (acc + t idx) else acc

/-- The query loop with adequate fuel (`idx` shrinks by at least 1 per
iteration). -/
def fenwickQuery (t : Nat → Int) (idx : Nat) : Int := queryGo t idx idx 0

/-- Pointwise effect of the update loop: with enough fuel it adds `c` exactly
at the chain nodes, which are the nodes `m ≤ bound` whose cover interval
`(m - lowbit m, m]` contains `idx`. -/
theorem updGo_apply (bound : Nat) (c : Int) :
    ∀ (fuel idx : Nat) (t : Nat → Int) (m : Nat), 0 < idx → bound + 1 ≤ idx + fuel →
      updGo bound c fuel idx t m =
        t m + (if idx ≤ m ∧ m ≤ bound ∧ m - lowbit m < idx then c else 0) := by
  intro fuel
  induction fuel with
  | zero =>
    intro idx t m h0 hfuel
    rw [updGo, if_neg (by omega)]
    omega
  | succ fuel ih =>
    intro idx t m h0 hfuel
    by_cases hg : idx ≤ bound
    · rw [updGo, if_pos ⟨h0, hg⟩]
      have hlb := lowbit_pos h0
      rw [ih (idx + lowbit idx) (bump t idx c) m (by omega) (by omega)]
      by_cases hm : m = idx
      · subst hm
        rw [if_neg (show ¬(m + lowbit m ≤ m ∧ m ≤ bound ∧ m - lowbit m < m + lowbit m) by omega),
          if_pos (show m ≤ m ∧ m ≤ bound ∧ m - lowbit m < m from ⟨le_refl m, hg, by omega⟩)]
        simp [bump]
      · have hbump : bump t idx c m = t m := by simp [bump, hm]
        rw [hbump]
        congr 1
        have hiff : (idx + lowbit idx ≤ m ∧ m ≤ bound ∧ m - lowbit m < idx + lowbit idx) ↔
            (idx ≤ m ∧ m ≤ bound ∧ m - lowbit m < idx) := by
          constructor
          · rintro ⟨hi1, hi2, hi3⟩
            refine ⟨by omega, hi2, ?_⟩
            by_contra hge
            have := cover_mono (j := idx) (m := m) h0 (by omega) (by omega)
            omega
          · rintro ⟨hi1, hi2, hi3⟩
            have hlt : idx < m := by omega
            have := cover_extend hi3 hlt
            exact ⟨this, hi2, by omega⟩
        rw [if_congr hiff rfl rfl]
    · rw [updGo, if_neg (by omega), if_neg (by omega)]
      omega

theorem fenwickUpdate_apply (bound : Nat) (c : Int) (idx : Nat) (t : Nat → Int) (m : Nat)
    (h0 : 0 < idx) :
    fenwickUpdate bound c idx t m =
      t m + (if idx ≤ m ∧ m ≤ bound ∧ m - lowbit m < idx then c else 0) :=
  updGo_apply bound c (bound + 1 - idx) idx t m h0 (by omega)

theorem updGo_zero_idx (bound : Nat) (c : Int) (t : Nat → Int) :
    ∀ fuel, updGo bound c fuel 0 t = t
  | 0 => rfl
  | fuel + 1 => by rw [updGo, if_neg (by omega)]

theorem fenwickUpdate_zero (bound : Nat) (c : Int) (t : Nat → Int) :
    fenwickUpdate bound c 0 t = t :=
  updGo_zero_idx bound c t _

/-- The prefix-query loop computes the full prefix sum of the represented
point function: if every node `m ∈ [1, B]` of the tree stores the sum of `f`
over its cover interval `(m - lowbit m, m]`, then querying any `idx ≤ B`
returns `acc` plus the sum of `f` over `(0, idx]`. -/
theorem queryGo_spec (t f : Nat → Int) (B : Nat)
    (hrep : ∀ m, 0 < m → m ≤ B → t m = ∑ j ∈ Finset.Ioc (m - lowbit m) m, f j) :
    ∀ (fuel idx : Nat) (acc : Int), idx ≤ fuel → idx ≤ B →
      queryGo t fuel idx acc = acc + ∑ j ∈ Finset.Ioc 0 idx, f j := by
  intro fuel
  induction fuel with
  | zero =>
    intro idx acc hf hB
    have : idx = 0 := by omega
    subst this
    simp [queryGo]
  | succ fuel ih =>
    intro idx acc hf hB
    by_cases h0 : 0 < idx
    · rw [queryGo, if_pos h0]
      have hlb := lowbit_pos h0
      rw [ih (idx - lowbit idx) (acc + t idx) (by omega) (by omega),
        hrep idx h0 hB]
      have hcons := Finset.sum_Ioc_consecutive f
        (Nat.zero_le (idx - lowbit idx)) (Nat.sub_le idx (lowbit idx))
      linarith [hcons]
    · have : idx = 0 := by omega
      subst this
      simp [queryGo]

/-! ## The two tree classes

`FenwickTree` from `complete_solution.py`: Python's two dense lists
`[0] * (size + 1)` are modelled as zero-initialised total maps `Nat → Int`;
the loop guards keep every index that is read or written inside `0..size`,
where the two representations coincide.  The single Python `while` loop in
`update` adds `1` to `count_tree[idx]` and `val` to `sum_tree[idx]` along one
index chain; it is embedded as one generic loop instance per tree, with the
identical chain. -/

structure FenwickTree where
  size : Nat
  count_tree : Nat → Int
  sum_tree : Nat → Int

def FenwickTree.init (size : Nat) : FenwickTree :=
  { size := size, count_tree := fun _ => 0, sum_tree := fun _ => 0 }

def FenwickTree.update (ft : FenwickTree) (idx : Nat) (val : Int) : FenwickTree :=
  { size := ft.size
    count_tree := fenwickUpdate ft.size 1 idx ft.count_tree
    sum_tree := fenwickUpdate ft.size val idx ft.sum_tree }

def FenwickTree.query_count (ft : FenwickTree) (idx : Nat) : Int :=
  fenwickQuery ft.count_tree idx

def FenwickTree.query_sum (ft : FenwickTree) (idx : Nat) : Int :=
  fenwickQuery ft.sum_tree idx

/-- Structure `CompactFenwickTree` from `memory_optimized_solution.py`: the two
`defaultdict(int)` are zero-initialised total maps `Nat → Int`.  `update`
first sets `max_idx = max(max_idx, idx)` and then runs the loop
`while idx > 0 and idx <= max_idx + 1000`.  (`clear_unused` only deletes
zero-valued dictionary entries, which is invisible in the total-map view.) -/
structure CompactFenwickTree where
  count_tree : Nat → Int
  sum_tree : Nat → Int
  max_idx : Nat

def CompactFenwickTree.init : CompactFenwickTree :=
  { count_tree := fun _ => 0, sum_tree := fun _ => 0, max_idx := 0 }

def CompactFenwickTree.update (ft : CompactFenwickTree) (idx : Nat) (val : Int) :
    CompactFenwickTree :=
  let m := max ft.max_idx idx
  { count_tree := fenwickUpdate (m + 1000) 1 idx ft.count_tree
    sum_tree := fenwickUpdate (m + 1000) val idx ft.sum_tree
    max_idx := m }

def CompactFenwickTree.query_count (ft : CompactFenwickTree) (idx : Nat) : Int :=
  fenwickQuery ft.count_tree idx

def CompactFenwickTree.query_sum (ft : CompactFenwickTree) (idx : Nat) : Int :=
  fenwickQuery ft.sum_tree idx

/-! ## Coordinate compression

`sorted_values = sorted(set(arr))` and
`value_to_rank = {v: i + 1 for i, v in enumerate(sorted_values)}`
(`complete_solution.py` lines 101-102; `get_unique_values_streaming` and
`simple_memory_optimized.py` lines 37-39 build the identical mapping). -/

/-- The distinct values of `arr` in ascending order.  `set(arr)` is the
deduplicated list of values; insertion sort is used for `sorted` because,
unlike `List.mergeSort`, it reduces in the kernel — the sorted list is
extensionally unique anyway. -/
def sorted_values (arr : List Int) : List Int :=
  List.insertionSort (· ≤ ·) arr.dedup

/-- The rank dictionary as a function: one plus the position of `v` in
`sorted_values`.  (Python raises `KeyError` outside the dictionary's domain;
the algorithms only ever look up values of `arr`.) -/
def value_to_rank (svs : List Int) (v : Int) : Nat := svs.indexOf v + 1

theorem mem_sorted_values {arr : List Int} {v : Int} :
    v ∈ sorted_values arr ↔ v ∈ arr := by
  rw [sorted_values, (List.perm_insertionSort _ _).mem_iff, List.mem_dedup]

theorem sorted_values_sorted (arr : List Int) : (sorted_values arr).Sorted (· ≤ ·) :=
  List.sorted_insertionSort _ _

theorem sorted_values_nodup (arr : List Int) : (sorted_values arr).Nodup :=
  (List.perm_insertionSort _ _).nodup_iff.mpr arr.nodup_dedup

theorem sorted_values_sorted_lt (arr : List Int) : (sorted_values arr).Sorted (· < ·) :=
  (sorted_values_sorted arr).lt_of_le (sorted_values_nodup arr)

theorem sorted_values_length (arr : List Int) :
    (sorted_values arr).length = arr.toFinset.card := by
  rw [sorted_values, List.length_insertionSort, List.card_toFinset]

theorem sorted_values_length_le (arr : List Int) :
    (sorted_values arr).length ≤ arr.length := by
  rw [sorted_values, List.length_insertionSort]
  exact arr.dedup_sublist.length_le

theorem value_to_rank_pos (svs : List Int) (v : Int) : 1 ≤ value_to_rank svs v :=
  Nat.le_add_left 1 _

theorem value_to_rank_le {arr : List Int} {v : Int} (hv : v ∈ arr) :
    value_to_rank (sorted_values arr) v ≤ (sorted_values arr).length := by
  have := List.indexOf_lt_length.mpr (mem_sorted_values.mpr hv)
  rw [value_to_rank]
  omega

/-- The compression is strictly order preserving on the values of `arr`. -/
theorem value_to_rank_lt_iff {arr : List Int} {v w : Int} (hv : v ∈ arr) (hw : w ∈ arr) :
    value_to_rank (sorted_values arr) v < value_to_rank (sorted_values arr) w ↔ v < w := by
  have hv' := List.indexOf_lt_length.mpr (mem_sorted_values.mpr hv)
  have hw' := List.indexOf_lt_length.mpr (mem_sorted_values.mpr hw)
  have hsl := sorted_values_sorted_lt arr
  have hget : ∀ {a b : Fin (sorted_values arr).length}, a < b →
      (sorted_values arr).get a < (sorted_values arr).get b := fun h => hsl.rel_get_of_lt h
  have hgv : (sorted_values arr).get ⟨_, hv'⟩ = v := List.indexOf_get hv'
  have hgw : (sorted_values arr).get ⟨_, hw'⟩ = w := List.indexOf_get hw'
  rw [value_to_rank, value_to_rank]
  constructor
  · intro h
    have : (⟨_, hv'⟩ : Fin (sorted_values arr).length) < ⟨_, hw'⟩ := by
      simp only [Fin.mk_lt_mk]
      omega
    have := hget this
    rw [hgv, hgw] at this
    exact this
  · intro h
    rcases Nat.lt_trichotomy ((sorted_values arr).indexOf v) ((sorted_values arr).indexOf w)
      with hlt | heq | hgt
    · omega
    · exfalso
      have : v = w := by
        rw [← hgv, ← hgw]
        congr 1
        exact Fin.ext heq
      omega
    · exfalso
      have : (⟨_, hw'⟩ : Fin (sorted_values arr).length) < ⟨_, hv'⟩ := by
        simp only [Fin.mk_lt_mk]
        omega
      have := hget this
      rw [hgv, hgw] at this
      omega

theorem value_to_rank_inj {arr : List Int} {v w : Int} (hv : v ∈ arr) (hw : w ∈ arr) :
    value_to_rank (sorted_values arr) v = value_to_rank (sorted_values arr) w ↔ v = w := by
  constructor
  · intro h
    rcases lt_trichotomy v w with hlt | heq | hgt
    · have := (value_to_rank_lt_iff hv hw).mpr hlt
      omega
    · exact heq
    · have := (value_to_rank_lt_iff hw hv).mpr hgt
      omega
  · intro h
    rw [h]

theorem value_to_rank_surj {arr : List Int} {r : Nat} (h1 : 1 ≤ r)
    (h2 : r ≤ (sorted_values arr).length) :
    ∃ v, v ∈ arr ∧ value_to_rank (sorted_values arr) v = r := by
  have hr : r - 1 < (sorted_values arr).length := by omega
  refine ⟨(sorted_values arr).get ⟨r - 1, hr⟩, ?_, ?_⟩
  · exact mem_sorted_values.mp (List.get_mem _ _ _)
  · rw [value_to_rank, List.get_indexOf (sorted_values_nodup arr) ⟨r - 1, hr⟩]
    show r - 1 + 1 = r
    omega

/-! ## The algorithms -/

/-- The contribution of the ordered pair `(a, b)` (`a` earlier, `b` later):
`b - a` if the difference is positive, else `0`. -/
def posd (a b : Int) : Int := if 0 < b - a then b - a else 0

theorem posd_nonneg (a b : Int) : 0 ≤ posd a b := by
  rw [posd]
  split <;> omega

/-- Structural form of the brute-force double loop: the head element is paired
with everything after it, plus the sum over the tail. -/
def pairSum : List Int → Int
  | [] => 0
  | a :: rest => (rest.map (fun b => posd a b)).sum + pairSum rest

/-- Sum of the positive differences over all cross pairs `(x, y)` with
`x` from the first and `y` from the second list. -/
def crossPairs (l₁ l₂ : List Int) : Int :=
  (l₁.map (fun x => (l₂.map (fun y => posd x y)).sum)).sum

/-- Function `calculate_positive_differences_naive` (`complete_solution.py` lines
57-77, identical in `sum_positive_differences.py`): double loop over `i`,
then `j in range(i + 1, n)`, accumulating `arr[j] - arr[i]` when positive. -/
def calculate_positive_differences_naive (arr : List Int) : Int :=
  (List.range arr.length).foldl (fun total_sum i =>
    (List.range' (i + 1) (arr.length - (i + 1))).foldl (fun total_sum j =>
      let diff := arr.getD j 0 - arr.getD i 0
      if 0 < diff then total_sum + diff else total_sum) total_sum) 0

/-- Body of the main loop of `calculate_positive_differences_optimized`
(`complete_solution.py` lines 108-125): look up the rank of the current
value, add `current_val * smaller_count - smaller_sum` to the running total
when the rank exceeds 1, then insert the value into the tree. -/
def optStep (svs : List Int) (st : FenwickTree × Int) (current_val : Int) :
    FenwickTree × Int :=
  let current_rank := value_to_rank svs current_val
  let total_sum :=
    if 1 < current_rank then
      st.2 + (current_val * st.1.query_count (current_rank - 1)
        - st.1.query_sum (current_rank - 1))
    else st.2
  (st.1.update current_rank current_val, total_sum)

/-- Function `calculate_positive_differences_optimized` (`complete_solution.py` lines
79-127; `calculate_with_coordinate_compression` in
`optimized_sum_algorithm.py` is the same code). -/
def calculate_positive_differences_optimized (arr : List Int) : Int :=
  if arr.length ≤ 1 then 0
  else
    let svs := sorted_values arr
    (arr.foldl (optStep svs) (FenwickTree.init svs.length, 0)).2

/-- Body of the main loop of `calculate_positive_differences_memory_optimized`
(`memory_optimized_solution.py` lines 119-133), identical to `optStep` except
for the tree class. -/
def memStep (svs : List Int) (st : CompactFenwickTree × Int) (current_val : Int) :
    CompactFenwickTree × Int :=
  let current_rank := value_to_rank svs current_val
  let total_sum :=
    if 1 < current_rank then
      st.2 + (current_val * st.1.query_count (current_rank - 1)
        - st.1.query_sum (current_rank - 1))
    else st.2
  (st.1.update current_rank current_val, total_sum)

/-- Function `calculate_positive_differences_memory_optimized`
(`memory_optimized_solution.py` lines 92-144).  The batching
(`batch_size = min(10000, n // 10 + 1)`) tiles `range(n)` with consecutive
index blocks, so the element order is the plain left-to-right pass; the
periodic `clear_unused`/`gc.collect()` calls only drop zero-valued dictionary
entries and are invisible in the total-map view of `defaultdict(int)`. -/
def calculate_positive_differences_memory_optimized (arr : List Int) : Int :=
  if arr.length ≤ 1 then 0
  else
    let svs := sorted_values arr
    (arr.foldl (memStep svs) (CompactFenwickTree.init, 0)).2

/-- One iteration of `for i in range(0, n, chunk_size)` in
`calculate_positive_differences_chunked` (`memory_optimized_solution.py`
lines 164-183): add the in-chunk sum computed by the memory-optimized
algorithm, then the brute-force cross sum `for j in range(chunk_end, n)`,
`for k in range(i, chunk_end)`, then continue at `chunk_end`.  The fuel
dominates the iteration count whenever `chunk_size ≥ 1` (Python's `range`
raises on step 0). -/
def chunkGo (arr : List Int) (chunk_size n : Nat) : Nat → Nat → Int → Int
  | 0, _, total_sum => total_sum
  | fuel + 1, i, total_sum =>
    if i < n then
      let chunk_end := min (i + chunk_size) n
      let chunk := (arr.drop i).take (chunk_end - i)
      let total_sum := total_sum + calculate_positive_differences_memory_optimized chunk
      let total_sum := (List.range' chunk_end (n - chunk_end)).foldl (fun acc j =>
        (List.range' i (chunk_end - i)).foldl (fun acc k =>
          let diff := arr.getD j 0 - arr.getD k 0
          if 0 < diff then acc + diff else acc) acc) total_sum
      chunkGo arr chunk_size n fuel chunk_end total_sum
    else total_sum

/-- Function `calculate_positive_differences_chunked` (`memory_optimized_solution.py`
lines 146-185). -/
def calculate_positive_differences_chunked (arr : List Int) (chunk_size : Nat) : Int :=
  if arr.length ≤ chunk_size then calculate_positive_differences_memory_optimized arr
  else chunkGo arr chunk_size arr.length arr.length 0 0

/-! ## Tree states reached by sequences of insertions -/

/-- Fold a list of `(rank, value)` insertions into a fresh dense tree of
size `k`. -/
def insertAllDense (k : Nat) (ops : List (Nat × Int)) : FenwickTree :=
  ops.foldl (fun ft p => ft.update p.1 p.2) (FenwickTree.init k)

/-- Fold a list of `(rank, value)` insertions into a fresh compact tree. -/
def insertAllCompact (ops : List (Nat × Int)) : CompactFenwickTree :=
  ops.foldl (fun ft p => ft.update p.1 p.2) CompactFenwickTree.init

/-- How many inserted pairs have rank exactly `r`. -/
def rankCount (ops : List (Nat × Int)) (r : Nat) : Int :=
  ((ops.filter (fun p => p.1 == r)).length : Int)

/-- Sum of the values of the inserted pairs of rank exactly `r`. -/
def rankSum (ops : List (Nat × Int)) (r : Nat) : Int :=
  ((ops.filter (fun p => p.1 == r)).map (fun p => p.2)).sum

/-- The ideal content of tree node `m`: the aggregate of its cover interval
`(m - lowbit m, m]`. -/
def nodeSum (f : Nat → Int) (m : Nat) : Int := ∑ j ∈ Finset.Ioc (m - lowbit m) m, f j

theorem rankCount_append (ops : List (Nat × Int)) (q : Nat × Int) (r : Nat) :
    rankCount (ops ++ [q]) r = rankCount ops r + if q.1 = r then 1 else 0 := by
  by_cases h : q.1 = r <;>
    simp [rankCount, List.filter_append, List.filter_cons, h]

theorem rankSum_append (ops : List (Nat × Int)) (q : Nat × Int) (r : Nat) :
    rankSum (ops ++ [q]) r = rankSum ops r + if q.1 = r then q.2 else 0 := by
  by_cases h : q.1 = r <;>
    simp [rankSum, List.filter_append, List.filter_cons, h]

theorem nodeSum_delta (f g : Nat → Int) (r : Nat) (c : Int)
    (h : ∀ j, g j = f j + if r = j then c else 0) (m : Nat) :
    nodeSum g m = nodeSum f m + if m - lowbit m < r ∧ r ≤ m then c else 0 := by
  rw [nodeSum, nodeSum]
  simp only [h]
  rw [Finset.sum_add_distrib, Finset.sum_ite_eq]
  congr 1
  exact if_congr Finset.mem_Ioc rfl rfl

theorem foldl_update_size (ops : List (Nat × Int)) :
    ∀ ft : FenwickTree, (ops.foldl (fun ft p => ft.update p.1 p.2) ft).size = ft.size := by
  induction ops with
  | nil => intro ft; rfl
  | cons q ops ih => intro ft; rw [List.foldl_cons, ih]; rfl

theorem insertAllDense_size (k : Nat) (ops : List (Nat × Int)) :
    (insertAllDense k ops).size = k :=
  foldl_update_size ops _

/-- The dense tree invariant: after any sequence of insertions, every node
`m ∈ [1, k]` stores the count, resp. value-sum, of the inserted pairs whose
rank lies in its cover interval.  (Rank-0 insertions write nothing — the
model's loop exits where Python would not terminate — and ranks above `k`
are ignored by the `idx <= size` guard, so no hypothesis on the ranks is
needed.) -/
theorem insertAllDense_repr (k : Nat) (ops : List (Nat × Int)) :
    ∀ m, 0 < m → m ≤ k →
      (insertAllDense k ops).count_tree m = nodeSum (rankCount ops) m ∧
      (insertAllDense k ops).sum_tree m = nodeSum (rankSum ops) m := by
  induction ops using List.reverseRecOn with
  | nil =>
    intro m hm hk
    constructor <;>
      simp [insertAllDense, FenwickTree.init, nodeSum, rankCount, rankSum]
  | append_singleton ops q ih =>
    intro m hm hk
    have hfold : insertAllDense k (ops ++ [q]) = (insertAllDense k ops).update q.1 q.2 := by
      rw [insertAllDense, List.foldl_append, List.foldl_cons, List.foldl_nil]
      rfl
    have hsize : (insertAllDense k ops).size = k := insertAllDense_size k ops
    have hcd := nodeSum_delta (rankCount ops) (rankCount (ops ++ [q])) q.1 1
      (fun j => rankCount_append ops q j) m
    have hsd := nodeSum_delta (rankSum ops) (rankSum (ops ++ [q])) q.1 q.2
      (fun j => rankSum_append ops q j) m
    rcases Nat.eq_zero_or_pos q.1 with hq0 | hq1
    · rw [hfold, FenwickTree.update]
      simp only [hsize, hq0, fenwickUpdate_zero]
      have hnot : ¬(m - lowbit m < q.1 ∧ q.1 ≤ m) := by omega
      rw [if_neg hnot] at hcd hsd
      constructor
      · rw [(ih m hm hk).1, hcd]; ring
      · rw [(ih m hm hk).2, hsd]; ring
    · rw [hfold, FenwickTree.update]
      simp only [hsize]
      constructor
      · show fenwickUpdate k 1 q.1 (insertAllDense k ops).count_tree m = _
        rw [fenwickUpdate_apply k 1 q.1 _ m hq1, (ih m hm hk).1, hcd]
        congr 1
        by_cases hcond : m - lowbit m < q.1 ∧ q.1 ≤ m
        · rw [if_pos hcond, if_pos ⟨hcond.2, hk, hcond.1⟩]
        · rw [if_neg hcond, if_neg (by omega)]
      · show fenwickUpdate k q.2 q.1 (insertAllDense k ops).sum_tree m = _
        rw [fenwickUpdate_apply k q.2 q.1 _ m hq1, (ih m hm hk).2, hsd]
        congr 1
        by_cases hcond : m - lowbit m < q.1 ∧ q.1 ≤ m
        · rw [if_pos hcond, if_pos ⟨hcond.2, hk, hcond.1⟩]
        · rw [if_neg hcond, if_neg (by omega)]

/-- The compact tree invariant on nodes `m ≤ 1023`: the `max_idx + 1000`
clamp never cuts off a chain node that small (for `m ≤ 1000` because the
clamp is at least `idx + 1000 ≥ 1001`; for `1000 < m ≤ 1023` because
`lowbit m ≤ 512` forces the inserted rank above `m - 512`), so these nodes
hold exactly the ideal aggregates. -/
theorem insertAllCompact_repr (ops : List (Nat × Int)) :
    ∀ m, 0 < m → m ≤ 1023 →
      (insertAllCompact ops).count_tree m = nodeSum (rankCount ops) m ∧
      (insertAllCompact ops).sum_tree m = nodeSum (rankSum ops) m := by
  induction ops using List.reverseRecOn with
  | nil =>
    intro m hm hk
    constructor <;>
      simp [insertAllCompact, CompactFenwickTree.init, nodeSum, rankCount, rankSum]
  | append_singleton ops q ih =>
    intro m hm hk
    have hfold : insertAllCompact (ops ++ [q]) = (insertAllCompact ops).update q.1 q.2 := by
      rw [insertAllCompact, List.foldl_append, List.foldl_cons, List.foldl_nil]
      rfl
    have hcd := nodeSum_delta (rankCount ops) (rankCount (ops ++ [q])) q.1 1
      (fun j => rankCount_append ops q j) m
    have hsd := nodeSum_delta (rankSum ops) (rankSum (ops ++ [q])) q.1 q.2
      (fun j => rankSum_append ops q j) m
    have hlb512 : lowbit m ≤ 512 := by
      have h1024 : (2 : Nat) ^ 10 = 1024 := by norm_num
      have h512 : (2 : Nat) ^ 9 = 512 := by norm_num
      have := lowbit_le_of_lt_pow (k := 9) hm (by omega)
      omega
    set B := max (insertAllCompact ops).max_idx q.1 + 1000 with hB
    have hBge : q.1 + 1000 ≤ B := by
      have := Nat.le_max_right (insertAllCompact ops).max_idx q.1
      omega
    rcases Nat.eq_zero_or_pos q.1 with hq0 | hq1
    · rw [hfold, CompactFenwickTree.update]
      simp only [← hB, hq0, fenwickUpdate_zero]
      have hnot : ¬(m - lowbit m < q.1 ∧ q.1 ≤ m) := by omega
      rw [if_neg hnot] at hcd hsd
      constructor
      · rw [(ih m hm hk).1, hcd]; ring
      · rw [(ih m hm hk).2, hsd]; ring
    · rw [hfold, CompactFenwickTree.update]
      simp only [← hB]
      constructor
      · show fenwickUpdate B 1 q.1 (insertAllCompact ops).count_tree m = _
        rw [fenwickUpdate_apply B 1 q.1 _ m hq1, (ih m hm hk).1, hcd]
        congr 1
        by_cases hcond : m - lowbit m < q.1 ∧ q.1 ≤ m
        · rw [if_pos hcond, if_pos ⟨hcond.2, by omega, hcond.1⟩]
        · rw [if_neg hcond, if_neg (by omega)]
      · show fenwickUpdate B q.2 q.1 (insertAllCompact ops).sum_tree m = _
        rw [fenwickUpdate_apply B q.2 q.1 _ m hq1, (ih m hm hk).2, hsd]
        congr 1
        by_cases hcond : m - lowbit m < q.1 ∧ q.1 ≤ m
        · rw [if_pos hcond, if_pos ⟨hcond.2, by omega, hcond.1⟩]
        · rw [if_neg hcond, if_neg (by omega)]

/-- Prefix queries on the dense tree return the ideal prefix aggregates for
every `r ≤ k`. -/
theorem insertAllDense_query (k : Nat) (ops : List (Nat × Int)) (r : Nat) (hr : r ≤ k) :
    (insertAllDense k ops).query_count r = ∑ j ∈ Finset.Ioc 0 r, rankCount ops j ∧
    (insertAllDense k ops).query_sum r = ∑ j ∈ Finset.Ioc 0 r, rankSum ops j := by
  constructor
  · rw [FenwickTree.query_count, fenwickQuery,
      queryGo_spec _ (rankCount ops) k (fun m h1 h2 => (insertAllDense_repr k ops m h1 h2).1)
        r r 0 le_rfl hr]
    ring
  · rw [FenwickTree.query_sum, fenwickQuery,
      queryGo_spec _ (rankSum ops) k (fun m h1 h2 => (insertAllDense_repr k ops m h1 h2).2)
        r r 0 le_rfl hr]
    ring

/-- Prefix queries on the compact tree return the ideal prefix aggregates for
every `r ≤ 1023`. -/
theorem insertAllCompact_query (ops : List (Nat × Int)) (r : Nat) (hr : r ≤ 1023) :
    (insertAllCompact ops).query_count r = ∑ j ∈ Finset.Ioc 0 r, rankCount ops j ∧
    (insertAllCompact ops).query_sum r = ∑ j ∈ Finset.Ioc 0 r, rankSum ops j := by
  constructor
  · rw [CompactFenwickTree.query_count, fenwickQuery,
      queryGo_spec _ (rankCount ops) 1023
        (fun m h1 h2 => (insertAllCompact_repr ops m h1 h2).1) r r 0 le_rfl hr]
    ring
  · rw [CompactFenwickTree.query_sum, fenwickQuery,
      queryGo_spec _ (rankSum ops) 1023
        (fun m h1 h2 => (insertAllCompact_repr ops m h1 h2).2) r r 0 le_rfl hr]
    ring

/-- Summing the per-rank counts over `(0, R]` counts the pairs of rank at
most `R`, provided all ranks are at least 1. -/
theorem sum_Ioc_rankCount (R : Nat) :
    ∀ ops : List (Nat × Int), (∀ p ∈ ops, 1 ≤ p.1) →
      ∑ j ∈ Finset.Ioc 0 R, rankCount ops j =
        ((ops.filter (fun p => p.1 ≤ R)).length : Int) := by
  intro ops
  induction ops with
  | nil => simp [rankCount]
  | cons q ops ih =>
    intro hpos
    have hq : 1 ≤ q.1 := hpos q (List.mem_cons_self q ops)
    have hcons : ∀ j, rankCount (q :: ops) j = rankCount ops j + if q.1 = j then 1 else 0 := by
      intro j
      by_cases h : q.1 = j <;> simp [rankCount, List.filter_cons, h]
    simp only [hcons]
    rw [Finset.sum_add_distrib, Finset.sum_ite_eq,
      ih (fun p hp => hpos p (List.mem_cons_of_mem q hp))]
    by_cases h : q.1 ≤ R
    · rw [if_pos (Finset.mem_Ioc.mpr ⟨by omega, h⟩), List.filter_cons,
        if_pos (by simpa using h), List.length_cons]
      push_cast
      ring
    · rw [if_neg (by rw [Finset.mem_Ioc]; omega), List.filter_cons,
        if_neg (by simpa using h)]
      ring

/-- Summing the per-rank value sums over `(0, R]` adds up the values of the
pairs of rank at most `R`. -/
theorem sum_Ioc_rankSum (R : Nat) :
    ∀ ops : List (Nat × Int), (∀ p ∈ ops, 1 ≤ p.1) →
      ∑ j ∈ Finset.Ioc 0 R, rankSum ops j =
        (((ops.filter (fun p => p.1 ≤ R)).map (fun p => p.2)).sum) := by
  intro ops
  induction ops with
  | nil => simp [rankSum]
  | cons q ops ih =>
    intro hpos
    have hq : 1 ≤ q.1 := hpos q (List.mem_cons_self q ops)
    have hcons : ∀ j, rankSum (q :: ops) j = rankSum ops j + if q.1 = j then q.2 else 0 := by
      intro j
      by_cases h : q.1 = j
      · simp [rankSum, List.filter_cons, h]
        ring
      · simp [rankSum, List.filter_cons, h]
    simp only [hcons]
    rw [Finset.sum_add_distrib, Finset.sum_ite_eq,
      ih (fun p hp => hpos p (List.mem_cons_of_mem q hp))]
    by_cases h : q.1 ≤ R
    · rw [if_pos (Finset.mem_Ioc.mpr ⟨by omega, h⟩), List.filter_cons,
        if_pos (by simpa using h), List.map_cons, List.sum_cons]
      ring
    · rw [if_neg (by rw [Finset.mem_Ioc]; omega), List.filter_cons,
        if_neg (by simpa using h)]
      ring

/-! ## List algebra for the pairwise sum -/

theorem sum_map_add (l : List Int) (f g : Int → Int) :
    (l.map (fun x => f x + g x)).sum = (l.map f).sum + (l.map g).sum := by
  induction l with
  | nil => simp
  | cons a l ih => simp [ih]; ring

theorem pairSum_append (l : List Int) (v : Int) :
    pairSum (l ++ [v]) = pairSum l + (l.map (fun x => posd x v)).sum := by
  induction l with
  | nil => simp [pairSum]
  | cons a l ih =>
    show pairSum (a :: (l ++ [v])) = _
    rw [pairSum, ih, List.map_append]
    simp only [List.map_cons, List.map_nil, List.sum_append, List.sum_cons, List.sum_nil]
    rw [pairSum]
    ring

theorem crossPairs_nil_left (l : List Int) : crossPairs [] l = 0 := rfl

theorem crossPairs_cons_left (a : Int) (l₁ l₂ : List Int) :
    crossPairs (a :: l₁) l₂ = (l₂.map (fun y => posd a y)).sum + crossPairs l₁ l₂ := by
  rw [crossPairs, crossPairs, List.map_cons, List.sum_cons]

theorem crossPairs_cons_right (l₁ : List Int) (v : Int) (l₂ : List Int) :
    crossPairs l₁ (v :: l₂) = (l₁.map (fun x => posd x v)).sum + crossPairs l₁ l₂ := by
  rw [crossPairs, crossPairs]
  have : ∀ x : Int, ((v :: l₂).map (fun y => posd x y)).sum
      = posd x v + (l₂.map (fun y => posd x y)).sum := by
    intro x
    rw [List.map_cons, List.sum_cons]
  simp only [this]
  rw [sum_map_add]

theorem crossPairs_append_left (l₁ : List Int) (v : Int) (l₂ : List Int) :
    crossPairs (l₁ ++ [v]) l₂ = crossPairs l₁ l₂ + (l₂.map (fun y => posd v y)).sum := by
  rw [crossPairs, crossPairs, List.map_append, List.sum_append]
  simp

/-- Splitting a concatenation: within-part sums plus the cross pairs. -/
theorem pairSum_split (l₁ l₂ : List Int) :
    pairSum (l₁ ++ l₂) = pairSum l₁ + crossPairs l₁ l₂ + pairSum l₂ := by
  induction l₁ with
  | nil => simp [pairSum, crossPairs_nil_left]
  | cons a l₁ ih =>
    show pairSum (a :: (l₁ ++ l₂)) = _
    rw [pairSum, ih, List.map_append, List.sum_append, crossPairs_cons_left, pairSum]
    ring

/-- The key per-element identity: `v * |{x ∈ l : x < v}| - ∑ {x ∈ l : x < v}`
equals the sum of positive differences of `v` against everything in `l`. -/
theorem contribution_eq (v : Int) : ∀ l : List Int,
    v * ((l.filter (fun x => x < v)).length : Int) - (l.filter (fun x => x < v)).sum
      = (l.map (fun x => posd x v)).sum := by
  intro l
  induction l with
  | nil => simp
  | cons x l ih =>
    by_cases h : x < v
    · rw [List.filter_cons, if_pos (by simpa using h), List.map_cons, List.sum_cons,
        List.length_cons, List.sum_cons]
      have hp : posd x v = v - x := by rw [posd, if_pos (by omega)]
      rw [hp]
      push_cast
      have := ih
      nlinarith [ih]
    · rw [List.filter_cons, if_neg (by simpa using h), List.map_cons, List.sum_cons]
      have hp : posd x v = 0 := by rw [posd, if_neg (by omega)]
      rw [hp, ih]
      ring

theorem sum_map_nonneg (l : List Int) (f : Int → Int) (h : ∀ x, 0 ≤ f x) :
    0 ≤ (l.map f).sum :=
  List.sum_nonneg (by
    intro x hx
    obtain ⟨y, _, rfl⟩ := List.mem_map.mp hx
    exact h y)

/-! ## The naive double loop computes `pairSum` -/

theorem foldl_ite_add (g : Nat → Int) (l : List Nat) :
    ∀ a : Int, l.foldl (fun acc x => if 0 < g x then acc + g x else acc) a
      = a + (l.map (fun x => if 0 < g x then g x else 0)).sum := by
  induction l with
  | nil => intro a; simp
  | cons x l ih =>
    intro a
    rw [List.foldl_cons, ih, List.map_cons, List.sum_cons]
    by_cases h : 0 < g x
    · rw [if_pos h, if_pos h]; ring
    · rw [if_neg h, if_neg h]; ring

theorem foldl_add_of (F : Int → Nat → Int) (G : Nat → Int)
    (h : ∀ a i, F a i = a + G i) (l : List Nat) :
    ∀ a : Int, l.foldl F a = a + (l.map G).sum := by
  induction l with
  | nil => intro a; simp
  | cons x l ih =>
    intro a
    rw [List.foldl_cons, h, ih, List.map_cons, List.sum_cons]
    ring

theorem sum_map_range' (g : Nat → Int) :
    ∀ len s : Nat, ((List.range' s len).map g).sum = ∑ j ∈ Finset.Ico s (s + len), g j := by
  intro len
  induction len with
  | zero => intro s; simp
  | succ len ih =>
    intro s
    rw [List.range'_succ, List.map_cons, List.sum_cons, ih (s + 1),
      Finset.sum_eq_sum_Ico_succ_bot (by omega : s < s + (len + 1)) g,
      show s + (len + 1) = s + 1 + len by omega]

theorem sum_map_range (g : Nat → Int) (n : Nat) :
    ((List.range n).map g).sum = ∑ j ∈ Finset.range n, g j := by
  rw [List.range_eq_range', sum_map_range' g n 0, Finset.range_eq_Ico, Nat.zero_add]

theorem sum_range_getD (g : Int → Int) :
    ∀ l : List Int, ∑ t ∈ Finset.range l.length, g (l.getD t 0) = (l.map g).sum := by
  intro l
  induction l with
  | nil => simp
  | cons a l ih =>
    rw [List.length_cons, Finset.sum_range_succ', List.map_cons, List.sum_cons]
    simp only [List.getD_cons_succ, List.getD_cons_zero]
    rw [ih]
    ring

/-- The index-based double loop of the naive algorithm as a double sum. -/
theorem naive_eq_sum (arr : List Int) :
    calculate_positive_differences_naive arr =
      ∑ i ∈ Finset.range arr.length, ∑ j ∈ Finset.Ico (i + 1) arr.length,
        posd (arr.getD i 0) (arr.getD j 0) := by
  rw [calculate_positive_differences_naive]
  rw [foldl_add_of _
    (fun i => ((List.range' (i + 1) (arr.length - (i + 1))).map
      (fun j => if 0 < arr.getD j 0 - arr.getD i 0 then arr.getD j 0 - arr.getD i 0 else 0)).sum)
    (fun a i => foldl_ite_add (fun j => arr.getD j 0 - arr.getD i 0) _ a) _ 0]
  rw [zero_add, sum_map_range]
  refine Finset.sum_congr rfl fun i hi => ?_
  have hi' : i < arr.length := Finset.mem_range.mp hi
  rw [sum_map_range']
  rw [show i + 1 + (arr.length - (i + 1)) = arr.length by omega]
  refine Finset.sum_congr rfl fun j _ => ?_
  rw [posd]

theorem sum_eq_pairSum : ∀ arr : List Int,
    (∑ i ∈ Finset.range arr.length, ∑ j ∈ Finset.Ico (i + 1) arr.length,
      posd (arr.getD i 0) (arr.getD j 0)) = pairSum arr := by
  intro arr
  induction arr with
  | nil => simp [pairSum]
  | cons a l ih =>
    rw [List.length_cons, Finset.sum_range_succ']
    have hhead : (∑ j ∈ Finset.Ico (0 + 1) (l.length + 1),
        posd ((a :: l).getD 0 0) ((a :: l).getD j 0)) = (l.map (fun x => posd a x)).sum := by
      rw [Finset.sum_Ico_eq_sum_range]
      simp only [List.getD_cons_zero]
      rw [show l.length + 1 - (0 + 1) = l.length by omega, ← sum_range_getD (fun x => posd a x) l]
      refine Finset.sum_congr rfl fun t _ => ?_
      rw [show 0 + 1 + t = t + 1 by omega, List.getD_cons_succ]
    have hrest : (∑ i ∈ Finset.range l.length, ∑ j ∈ Finset.Ico (i + 1 + 1) (l.length + 1),
        posd ((a :: l).getD (i + 1) 0) ((a :: l).getD j 0)) = pairSum l := by
      rw [← ih]
      refine Finset.sum_congr rfl fun i _ => ?_
      rw [Finset.sum_Ico_eq_sum_range, Finset.sum_Ico_eq_sum_range]
      rw [show l.length + 1 - (i + 1 + 1) = l.length - (i + 1) by omega]
      refine Finset.sum_congr rfl fun t _ => ?_
      simp only [List.getD_cons_succ]
      rw [show i + 1 + 1 + t = (i + 1 + t) + 1 by omega, List.getD_cons_succ]
    rw [hhead, hrest, pairSum]
    ring

/-- The naive double loop (`complete_solution.py` lines 57-77) computes the
structural pairwise sum. -/
theorem naive_eq_pairSum (arr : List Int) :
    calculate_positive_differences_naive arr = pairSum arr := by
  rw [naive_eq_sum, sum_eq_pairSum]

/-! ## The aggregation pass -/

/-- The `(rank, value)` pairs inserted while processing the elements of `l`. -/
def rankOps (svs : List Int) (l : List Int) : List (Nat × Int) :=
  l.map (fun x => (value_to_rank svs x, x))

theorem rankOps_append (svs : List Int) (p : List Int) (v : Int) :
    rankOps svs (p ++ [v]) = rankOps svs p ++ [(value_to_rank svs v, v)] := by
  simp [rankOps]

theorem rankOps_pos (svs : List Int) (p : List Int) :
    ∀ q ∈ rankOps svs p, 1 ≤ q.1 := by
  intro q hq
  obtain ⟨x, _, rfl⟩ := List.mem_map.mp hq
  exact value_to_rank_pos svs x

theorem insertAllDense_append (k : Nat) (ops : List (Nat × Int)) (q : Nat × Int) :
    insertAllDense k (ops ++ [q]) = (insertAllDense k ops).update q.1 q.2 := by
  rw [insertAllDense, List.foldl_append, List.foldl_cons, List.foldl_nil]
  rfl

theorem insertAllCompact_append (ops : List (Nat × Int)) (q : Nat × Int) :
    insertAllCompact (ops ++ [q]) = (insertAllCompact ops).update q.1 q.2 := by
  rw [insertAllCompact, List.foldl_append, List.foldl_cons, List.foldl_nil]
  rfl

theorem crossPairs_nil_right (l : List Int) : crossPairs l [] = 0 := by
  simp [crossPairs]

/-- Restricting the inserted pairs to ranks `≤ rank v - 1` is the same as
restricting the processed values to those strictly below `v`. -/
theorem prefix_filter_eq (arr : List Int) (p : List Int) (hp : ∀ x ∈ p, x ∈ arr)
    {v : Int} (hv : v ∈ arr) :
    (rankOps (sorted_values arr) p).filter
        (fun q => q.1 ≤ value_to_rank (sorted_values arr) v - 1)
      = rankOps (sorted_values arr) (p.filter (fun x => x < v)) := by
  rw [rankOps, rankOps, List.filter_map]
  congr 1
  refine List.filter_congr fun x hx => ?_
  have hxa := hp x hx
  have h1 := value_to_rank_pos (sorted_values arr) v
  have hiff : value_to_rank (sorted_values arr) x ≤ value_to_rank (sorted_values arr) v - 1
      ↔ x < v := by
    rw [← value_to_rank_lt_iff hxa hv]
    omega
  simp only [Function.comp]
  exact decide_eq_decide.mpr hiff

/-- The queried pair `(smaller_count, smaller_sum)` turns into exactly the
per-element contribution `Σ_{x ∈ p} posd x v`, on the dense tree. -/
theorem optStep_correct (arr : List Int) (p : List Int) (hp : ∀ x ∈ p, x ∈ arr)
    {v : Int} (hv : v ∈ arr) (T : Int) :
    optStep (sorted_values arr)
        (insertAllDense (sorted_values arr).length (rankOps (sorted_values arr) p), T) v
      = (insertAllDense (sorted_values arr).length (rankOps (sorted_values arr) (p ++ [v])),
          T + (p.map (fun x => posd x v)).sum) := by
  set svs := sorted_values arr with hsvs
  set r := value_to_rank svs v with hr
  have hr1 : 1 ≤ r := value_to_rank_pos svs v
  have hrk : r ≤ svs.length := value_to_rank_le hv
  rw [optStep]
  simp only [← hr]
  rw [rankOps_append, insertAllDense_append]
  refine Prod.ext rfl ?_
  show (if 1 < r then T + (v * (insertAllDense svs.length (rankOps svs p)).query_count (r - 1)
      - (insertAllDense svs.length (rankOps svs p)).query_sum (r - 1)) else T) = _
  by_cases h1 : 1 < r
  · rw [if_pos h1]
    have hq := insertAllDense_query svs.length (rankOps svs p) (r - 1) (by omega)
    rw [hq.1, hq.2, sum_Ioc_rankCount (r - 1) _ (rankOps_pos svs p),
      sum_Ioc_rankSum (r - 1) _ (rankOps_pos svs p), prefix_filter_eq arr p hp hv]
    have hlen : ((rankOps svs (p.filter (fun x => x < v))).length : Int)
        = ((p.filter (fun x => x < v)).length : Int) := by
      rw [rankOps, List.length_map]
    have hmap : (rankOps svs (p.filter (fun x => x < v))).map (fun q => q.2)
        = p.filter (fun x => x < v) := by
      rw [rankOps, List.map_map]
      show List.map (fun x : Int => x) _ = _
      exact List.map_id' _
    rw [hlen, hmap, contribution_eq]
  · rw [if_neg h1]
    have hz : (p.map (fun x => posd x v)).sum = 0 := by
      refine List.sum_eq_zero fun y hy => ?_
      obtain ⟨x, hx, rfl⟩ := List.mem_map.mp hy
      have hxa := hp x hx
      have hnlt : ¬x < v := by
        intro hlt
        have hlt' := (value_to_rank_lt_iff hxa hv).mpr hlt
        rw [← hsvs] at hlt'
        have := value_to_rank_pos svs x
        omega
      rw [posd, if_neg (by omega)]
    rw [hz, add_zero]

/-- Same statement on the compact tree, additionally assuming
`rank v ≤ 1024` so that the query at `rank v - 1` stays within the exact
range `[0, 1023]` of `CompactFenwickTree`. -/
theorem memStep_correct (arr : List Int) (p : List Int) (hp : ∀ x ∈ p, x ∈ arr)
    {v : Int} (hv : v ∈ arr) (hr1024 : value_to_rank (sorted_values arr) v ≤ 1024) (T : Int) :
    memStep (sorted_values arr)
        (insertAllCompact (rankOps (sorted_values arr) p), T) v
      = (insertAllCompact (rankOps (sorted_values arr) (p ++ [v])),
          T + (p.map (fun x => posd x v)).sum) := by
  set svs := sorted_values arr with hsvs
  set r := value_to_rank svs v with hr
  have hr1 : 1 ≤ r := value_to_rank_pos svs v
  rw [memStep]
  simp only [← hr]
  rw [rankOps_append, insertAllCompact_append]
  refine Prod.ext rfl ?_
  show (if 1 < r then T + (v * (insertAllCompact (rankOps svs p)).query_count (r - 1)
      - (insertAllCompact (rankOps svs p)).query_sum (r - 1)) else T) = _
  by_cases h1 : 1 < r
  · rw [if_pos h1]
    have hq := insertAllCompact_query (rankOps svs p) (r - 1) (by omega)
    rw [hq.1, hq.2, sum_Ioc_rankCount (r - 1) _ (rankOps_pos svs p),
      sum_Ioc_rankSum (r - 1) _ (rankOps_pos svs p), prefix_filter_eq arr p hp hv]
    have hlen : ((rankOps svs (p.filter (fun x => x < v))).length : Int)
        = ((p.filter (fun x => x < v)).length : Int) := by
      rw [rankOps, List.length_map]
    have hmap : (rankOps svs (p.filter (fun x => x < v))).map (fun q => q.2)
        = p.filter (fun x => x < v) := by
      rw [rankOps, List.map_map]
      show List.map (fun x : Int => x) _ = _
      exact List.map_id' _
    rw [hlen, hmap, contribution_eq]
  · rw [if_neg h1]
    have hz : (p.map (fun x => posd x v)).sum = 0 := by
      refine List.sum_eq_zero fun y hy => ?_
      obtain ⟨x, hx, rfl⟩ := List.mem_map.mp hy
      have hxa := hp x hx
      have hnlt : ¬x < v := by
        intro hlt
        have hlt' := (value_to_rank_lt_iff hxa hv).mpr hlt
        rw [← hsvs] at hlt'
        have := value_to_rank_pos svs x
        omega
      rw [posd, if_neg (by omega)]
    rw [hz, add_zero]

/-- The whole left-to-right pass on the dense tree, started after an already
processed prefix `p`: the running total gains the pairwise sum of the new
elements plus all cross contributions against `p`. -/
theorem optPass_correct (arr : List Int) : ∀ l p : List Int,
    (∀ x ∈ l, x ∈ arr) → (∀ x ∈ p, x ∈ arr) → ∀ T : Int,
    l.foldl (optStep (sorted_values arr))
        (insertAllDense (sorted_values arr).length (rankOps (sorted_values arr) p), T)
      = (insertAllDense (sorted_values arr).length (rankOps (sorted_values arr) (p ++ l)),
          T + pairSum l + crossPairs p l) := by
  intro l
  induction l with
  | nil =>
    intro p _ hp T
    simp [pairSum, crossPairs_nil_right]
  | cons v l ih =>
    intro p hl hp T
    have hv : v ∈ arr := hl v (List.mem_cons_self v l)
    rw [List.foldl_cons, optStep_correct arr p hp hv T,
      ih (p ++ [v]) (fun x hx => hl x (List.mem_cons_of_mem v hx))
        (by
          intro x hx
          rcases List.mem_append.mp hx with h | h
          · exact hp x h
          · rw [List.mem_singleton.mp h]; exact hv)]
    refine Prod.ext ?_ ?_
    · show insertAllDense _ (rankOps _ ((p ++ [v]) ++ l)) = insertAllDense _ (rankOps _ (p ++ v :: l))
      rw [List.append_assoc, List.singleton_append]
    · show T + (p.map (fun x => posd x v)).sum + pairSum l + crossPairs (p ++ [v]) l
        = T + pairSum (v :: l) + crossPairs p (v :: l)
      rw [crossPairs_append_left, crossPairs_cons_right, pairSum]
      ring

/-- The same pass on the compact tree, under the additional hypothesis that
every rank involved is at most 1024. -/
theorem memPass_correct (arr : List Int) : ∀ l p : List Int,
    (∀ x ∈ l, x ∈ arr ∧ value_to_rank (sorted_values arr) x ≤ 1024) →
    (∀ x ∈ p, x ∈ arr) → ∀ T : Int,
    l.foldl (memStep (sorted_values arr))
        (insertAllCompact (rankOps (sorted_values arr) p), T)
      = (insertAllCompact (rankOps (sorted_values arr) (p ++ l)),
          T + pairSum l + crossPairs p l) := by
  intro l
  induction l with
  | nil =>
    intro p _ hp T
    simp [pairSum, crossPairs_nil_right]
  | cons v l ih =>
    intro p hl hp T
    have hv : v ∈ arr := (hl v (List.mem_cons_self v l)).1
    have hv1024 := (hl v (List.mem_cons_self v l)).2
    rw [List.foldl_cons, memStep_correct arr p hp hv hv1024 T,
      ih (p ++ [v]) (fun x hx => hl x (List.mem_cons_of_mem v hx))
        (by
          intro x hx
          rcases List.mem_append.mp hx with h | h
          · exact hp x h
          · rw [List.mem_singleton.mp h]; exact hv)]
    refine Prod.ext ?_ ?_
    · show insertAllCompact (rankOps _ ((p ++ [v]) ++ l)) = insertAllCompact (rankOps _ (p ++ v :: l))
      rw [List.append_assoc, List.singleton_append]
    · show T + (p.map (fun x => posd x v)).sum + pairSum l + crossPairs (p ++ [v]) l
        = T + pairSum (v :: l) + crossPairs p (v :: l)
      rw [crossPairs_append_left, crossPairs_cons_right, pairSum]
      ring

theorem pairSum_short {arr : List Int} (h : arr.length ≤ 1) : pairSum arr = 0 := by
  match arr, h with
  | [], _ => rfl
  | [a], _ => simp [pairSum]

/-- The function `calculate_positive_differences_optimized` always computes the pairwise
sum of positive differences. -/
theorem optimized_eq_pairSum (arr : List Int) :
    calculate_positive_differences_optimized arr = pairSum arr := by
  rw [calculate_positive_differences_optimized]
  by_cases h : arr.length ≤ 1
  · rw [if_pos h, pairSum_short h]
  · rw [if_neg h]
    show (arr.foldl (optStep (sorted_values arr))
      (FenwickTree.init (sorted_values arr).length, 0)).2 = pairSum arr
    have hinit : FenwickTree.init (sorted_values arr).length
        = insertAllDense (sorted_values arr).length (rankOps (sorted_values arr) []) := rfl
    rw [hinit, optPass_correct arr arr [] (fun x hx => hx) (by simp) 0]
    show 0 + pairSum arr + crossPairs [] arr = pairSum arr
    rw [crossPairs_nil_left]
    ring

/-- The function `calculate_positive_differences_memory_optimized` computes the pairwise
sum whenever the number of distinct values is at most 1024 (so that every
rank is at most 1024). -/
theorem memory_optimized_eq_pairSum_of_card (arr : List Int)
    (hcard : arr.toFinset.card ≤ 1024) :
    calculate_positive_differences_memory_optimized arr = pairSum arr := by
  rw [calculate_positive_differences_memory_optimized]
  by_cases h : arr.length ≤ 1
  · rw [if_pos h, pairSum_short h]
  · rw [if_neg h]
    show (arr.foldl (memStep (sorted_values arr))
      (CompactFenwickTree.init, 0)).2 = pairSum arr
    have hinit : CompactFenwickTree.init
        = insertAllCompact (rankOps (sorted_values arr) []) := rfl
    rw [hinit, memPass_correct arr arr []
      (fun x hx => ⟨hx, by
        have := value_to_rank_le hx
        rw [sorted_values_length] at this
        omega⟩)
      (by simp) 0]
    show 0 + pairSum arr + crossPairs [] arr = pairSum arr
    rw [crossPairs_nil_left]
    ring

/-! ## The chunked variant -/

theorem getD_eq_get {l : List Int} {n : Nat} (h : n < l.length) : l.getD n 0 = l[n] := by
  rw [List.getD_eq_getElem?_getD, List.getElem?_eq_getElem h, Option.getD_some]

/-- Index sums over a slice of `arr` are sums over the sliced list. -/
theorem sum_Ico_getD (arr : List Int) (F : Int → Int) :
    ∀ len a : Nat, a + len ≤ arr.length →
      (∑ j ∈ Finset.Ico a (a + len), F (arr.getD j 0))
        = (((arr.drop a).take len).map F).sum := by
  intro len
  induction len with
  | zero => intro a _; simp
  | succ len ih =>
    intro a ha
    have ha' : a < arr.length := by omega
    rw [Finset.sum_eq_sum_Ico_succ_bot (by omega : a < a + (len + 1)) _,
      show a + (len + 1) = (a + 1) + len by omega, ih (a + 1) (by omega),
      List.drop_eq_getElem_cons ha', List.take_succ_cons, List.map_cons, List.sum_cons,
      getD_eq_get ha']

/-- The brute-force cross-chunk double loop computes `crossPairs` of the
chunk against the rest of the array. -/
theorem crossLoop_eq (arr : List Int) (i e : Nat) (hie : i ≤ e) (hen : e ≤ arr.length)
    (acc : Int) :
    ((List.range' e (arr.length - e)).foldl (fun acc j =>
      (List.range' i (e - i)).foldl (fun acc k =>
        let diff := arr.getD j 0 - arr.getD k 0
        if 0 < diff then acc + diff else acc) acc) acc)
    = acc + crossPairs ((arr.drop i).take (e - i)) (arr.drop e) := by
  rw [foldl_add_of _
    (fun j => ((List.range' i (e - i)).map (fun k =>
      if 0 < arr.getD j 0 - arr.getD k 0 then arr.getD j 0 - arr.getD k 0 else 0)).sum)
    (fun a j => foldl_ite_add (fun k => arr.getD j 0 - arr.getD k 0) _ a) _ acc]
  congr 1
  rw [sum_map_range', show e + (arr.length - e) = arr.length by omega]
  have hstep1 : (∑ j ∈ Finset.Ico e arr.length,
      ((List.range' i (e - i)).map (fun k =>
        if 0 < arr.getD j 0 - arr.getD k 0 then arr.getD j 0 - arr.getD k 0 else 0)).sum)
      = ∑ j ∈ Finset.Ico e arr.length, ∑ k ∈ Finset.Ico i e,
          posd (arr.getD k 0) (arr.getD j 0) := by
    refine Finset.sum_congr rfl fun j _ => ?_
    rw [sum_map_range', show i + (e - i) = e by omega]
    simp only [posd]
  rw [hstep1, Finset.sum_comm]
  have hstep2 : (∑ k ∈ Finset.Ico i e, ∑ j ∈ Finset.Ico e arr.length,
      posd (arr.getD k 0) (arr.getD j 0))
      = ∑ k ∈ Finset.Ico i e,
          (((arr.drop e).take (arr.length - e)).map
            (fun y => posd (arr.getD k 0) y)).sum := by
    refine Finset.sum_congr rfl fun k _ => ?_
    rw [show (Finset.Ico e arr.length) = Finset.Ico e (e + (arr.length - e)) by congr 1; omega]
    exact sum_Ico_getD arr (fun y => posd (arr.getD k 0) y) (arr.length - e) e (by omega)
  rw [hstep2,
    show (Finset.Ico i e) = Finset.Ico i (i + (e - i)) by congr 1; omega,
    sum_Ico_getD arr
      (fun x => (((arr.drop e).take (arr.length - e)).map (fun y => posd x y)).sum)
      (e - i) i (by omega)]
  rw [crossPairs]
  congr 1
  rw [show arr.length - e = (arr.drop e).length by rw [List.length_drop], List.take_length]

/-- Invariant of the chunk loop: with chunks of at most 1024 elements, from
start index `i` onward it adds exactly the pairwise sum of `arr[i:]`. -/
theorem chunkGo_correct (arr : List Int) (cs : Nat) (hcs1 : 1 ≤ cs) (hcs : cs ≤ 1024) :
    ∀ fuel i : Nat, ∀ acc : Int, arr.length - i ≤ fuel →
      chunkGo arr cs arr.length fuel i acc = acc + pairSum (arr.drop i) := by
  intro fuel
  induction fuel with
  | zero =>
    intro i acc hfuel
    rw [chunkGo, List.drop_eq_nil_of_le (by omega), pairSum]
    ring
  | succ fuel ih =>
    intro i acc hfuel
    by_cases hi : i < arr.length
    · rw [chunkGo, if_pos hi]
      have hie : i ≤ min (i + cs) arr.length := by omega
      have hen : min (i + cs) arr.length ≤ arr.length := by omega
      have hei : i < min (i + cs) arr.length := by omega
      have hlen : ((arr.drop i).take (min (i + cs) arr.length - i)).length ≤ cs := by
        rw [List.length_take]
        omega
      have hcard : ((arr.drop i).take (min (i + cs) arr.length - i)).toFinset.card ≤ 1024 :=
        le_trans (le_trans (List.toFinset_card_le _) hlen) hcs
      show chunkGo arr cs arr.length fuel (min (i + cs) arr.length)
          ((List.range' (min (i + cs) arr.length) (arr.length - min (i + cs) arr.length)).foldl
            (fun acc j =>
              (List.range' i (min (i + cs) arr.length - i)).foldl (fun acc k =>
                let diff := arr.getD j 0 - arr.getD k 0
                if 0 < diff then acc + diff else acc) acc)
            (acc + calculate_positive_differences_memory_optimized
              ((arr.drop i).take (min (i + cs) arr.length - i))))
        = acc + pairSum (arr.drop i)
      rw [crossLoop_eq arr i (min (i + cs) arr.length) hie hen _,
        ih (min (i + cs) arr.length) _ (by omega),
        memory_optimized_eq_pairSum_of_card _ hcard]
      have hsplit : arr.drop i
          = (arr.drop i).take (min (i + cs) arr.length - i)
              ++ arr.drop (min (i + cs) arr.length) := by
        conv_lhs => rw [← List.take_append_drop (min (i + cs) arr.length - i) (arr.drop i)]
        rw [List.drop_drop,
          show i + (min (i + cs) arr.length - i) = min (i + cs) arr.length by omega]
      conv_rhs => rw [hsplit, pairSum_split]
      ring
    · rw [chunkGo, if_neg hi, List.drop_eq_nil_of_le (by omega), pairSum]
      ring

/-- With a positive chunk size of at most 1024, the chunked variant computes
the pairwise sum of the whole array. -/
theorem chunked_eq_pairSum (arr : List Int) (cs : Nat) (h1 : 1 ≤ cs) (h2 : cs ≤ 1024) :
    calculate_positive_differences_chunked arr cs = pairSum arr := by
  rw [calculate_positive_differences_chunked]
  by_cases h : arr.length ≤ cs
  · rw [if_pos h]
    exact memory_optimized_eq_pairSum_of_card arr
      (le_trans (le_trans (List.toFinset_card_le _) h) h2)
  · rw [if_neg h, chunkGo_correct arr cs h1 h2 arr.length 0 0 (by omega), List.drop_zero]
    ring

/-! ## A concrete input separating the compact variant from the others

`arrCE` holds the 1025 distinct values `1..1025`: the value `2` first, then
`1025`, then the rest.  Inserting rank 2 first sets `max_idx = 2`, so the
compact update loop stops at `2 + 1000 = 1002` and Fenwick node `1024`
(the last node of rank 2's update chain) is never written.  The element
`1025` then queries exactly node `1024` and loses the contribution
`1025 - 2 = 1023`. -/

def lCE : List Int := 1 :: (List.range' 3 1022).map (Nat.cast : Nat → Int)

def arrCE : List Int := 2 :: 1025 :: lCE

def svsCE : List Int := (List.range' 1 1025).map (Nat.cast : Nat → Int)

theorem mem_coe_range' {s len : Nat} {v : Int} :
    v ∈ (List.range' s len).map (Nat.cast : Nat → Int) ↔
      (s : Int) ≤ v ∧ v < (s : Int) + (len : Int) := by
  rw [List.mem_map]
  constructor
  · rintro ⟨n, hn, rfl⟩
    rw [List.mem_range'_1] at hn
    constructor <;> [exact_mod_cast hn.1; exact_mod_cast hn.2]
  · rintro ⟨h1, h2⟩
    refine ⟨v.toNat, ?_, by omega⟩
    rw [List.mem_range'_1]
    omega

theorem mem_arrCE {v : Int} : v ∈ arrCE ↔ 1 ≤ v ∧ v ≤ 1025 := by
  rw [arrCE, lCE]
  simp only [List.mem_cons, mem_coe_range']
  push_cast
  omega

theorem coe_range'_sorted_lt : ∀ len s : Nat,
    (((List.range' s len).map (Nat.cast : Nat → Int)).Sorted (· < ·)) := by
  intro len
  induction len with
  | zero => intro s; simp
  | succ len ih =>
    intro s
    rw [List.range'_succ, List.map_cons]
    refine List.sorted_cons.mpr ⟨?_, ih (s + 1)⟩
    intro b hb
    rw [mem_coe_range'] at hb
    push_cast at hb ⊢
    omega

theorem svsCE_sorted_lt : svsCE.Sorted (· < ·) := coe_range'_sorted_lt 1025 1

theorem svsCE_nodup : svsCE.Nodup := svsCE_sorted_lt.nodup

theorem mem_svsCE {v : Int} : v ∈ svsCE ↔ 1 ≤ v ∧ v ≤ 1025 := by
  rw [svsCE, mem_coe_range']
  push_cast
  omega

theorem sorted_values_arrCE : sorted_values arrCE = svsCE := by
  refine List.eq_of_perm_of_sorted
    (List.perm_of_nodup_nodup_toFinset_eq (sorted_values_nodup arrCE) svsCE_nodup ?_)
    (sorted_values_sorted arrCE) svsCE_sorted_lt.le_of_lt
  ext v
  simp only [List.mem_toFinset]
  rw [mem_sorted_values, mem_arrCE, mem_svsCE]

theorem indexOf_coe_range' : ∀ len s v : Nat, s ≤ v → v < s + len →
    ((List.range' s len).map (Nat.cast : Nat → Int)).indexOf ((v : Nat) : Int) = v - s := by
  intro len
  induction len with
  | zero => intro s v h1 h2; omega
  | succ len ih =>
    intro s v h1 h2
    rw [List.range'_succ, List.map_cons]
    rcases Nat.eq_or_lt_of_le h1 with heq | hlt
    · rw [heq, List.indexOf_cons_self]
      omega
    · have hne : ((s : Nat) : Int) ≠ ((v : Nat) : Int) := by
        intro hc
        have : s = v := by exact_mod_cast hc
        omega
      rw [List.indexOf_cons_ne _ hne, ih (s + 1) v hlt (by omega)]
      omega

theorem rank_svsCE (v : Nat) (h1 : 1 ≤ v) (h2 : v ≤ 1025) :
    value_to_rank svsCE ((v : Nat) : Int) = v := by
  rw [value_to_rank, svsCE, indexOf_coe_range' 1025 1 v h1 (by omega)]
  omega

theorem rank_two : value_to_rank svsCE 2 = 2 := by
  have := rank_svsCE 2 (by omega) (by omega)
  norm_num at this
  exact this

theorem rank_1025 : value_to_rank svsCE 1025 = 1025 := by
  have := rank_svsCE 1025 (by omega) (by omega)
  norm_num at this
  exact this

theorem lCE_mem_rank : ∀ x ∈ lCE, x ∈ arrCE ∧ value_to_rank svsCE x ≤ 1024 := by
  intro x hx
  rw [lCE, List.mem_cons] at hx
  rcases hx with rfl | hx
  · refine ⟨mem_arrCE.mpr (by omega), ?_⟩
    have := rank_svsCE 1 (by omega) (by omega)
    norm_num at this
    omega
  · rw [mem_coe_range'] at hx
    push_cast at hx
    have hx' : x = ((x.toNat : Nat) : Int) := by omega
    refine ⟨mem_arrCE.mpr (by omega), ?_⟩
    rw [hx', rank_svsCE x.toNat (by omega) (by omega)]
    omega

theorem arrCE_length : arrCE.length = 1025 := by
  rw [arrCE, lCE]
  simp

set_option maxRecDepth 8192 in
theorem memopt_arrCE_eq : calculate_positive_differences_memory_optimized arrCE
    = pairSum lCE + crossPairs [2, 1025] lCE := by
  have hlen : ¬arrCE.length ≤ 1 := by rw [arrCE_length]; omega
  rw [calculate_positive_differences_memory_optimized, if_neg hlen]
  show (arrCE.foldl (memStep (sorted_values arrCE)) (CompactFenwickTree.init, 0)).2 = _
  have hl : ∀ x ∈ lCE, x ∈ arrCE ∧ value_to_rank (sorted_values arrCE) x ≤ 1024 := by
    rw [sorted_values_arrCE]; exact lCE_mem_rank
  have hp : ∀ x ∈ ([2, 1025] : List Int), x ∈ arrCE := by
    intro x hx
    rcases List.mem_cons.mp hx with rfl | hx
    · exact mem_arrCE.mpr (by omega)
    · rw [List.mem_singleton.mp hx]
      exact mem_arrCE.mpr (by omega)
  have hpass := memPass_correct arrCE lCE [2, 1025] hl hp 0
  rw [sorted_values_arrCE] at hpass ⊢
  have hops : rankOps svsCE [2, 1025] = [(2, 2), (1025, 1025)] := by
    rw [rankOps]
    simp [rank_two, rank_1025]
  rw [hops] at hpass
  have hic : insertAllCompact [(2, 2), (1025, 1025)]
      = (CompactFenwickTree.init.update 2 2).update 1025 1025 := rfl
  rw [hic] at hpass
  have hq1c : CompactFenwickTree.init.query_count 1 = 0 := by decide
  have hq1s : CompactFenwickTree.init.query_sum 1 = 0 := by decide
  have hq1024c : (CompactFenwickTree.init.update 2 2).query_count 1024 = 0 := by decide
  have hq1024s : (CompactFenwickTree.init.update 2 2).query_sum 1024 = 0 := by decide
  have hstep1 : memStep svsCE (CompactFenwickTree.init, 0) 2
      = (CompactFenwickTree.init.update 2 2, 0) := by
    refine Prod.ext ?_ ?_
    · show CompactFenwickTree.init.update (value_to_rank svsCE 2) 2
        = CompactFenwickTree.init.update 2 2
      rw [rank_two]
    · show (if 1 < value_to_rank svsCE 2 then
          (0 : Int) + ((2 : Int) * CompactFenwickTree.init.query_count (value_to_rank svsCE 2 - 1)
            - CompactFenwickTree.init.query_sum (value_to_rank svsCE 2 - 1))
        else (0 : Int)) = 0
      rw [rank_two, if_pos (by norm_num : (1 : Nat) < 2),
        show (2 : Nat) - 1 = 1 by norm_num, hq1c, hq1s]
      norm_num
  have hstep2 : memStep svsCE (CompactFenwickTree.init.update 2 2, 0) 1025
      = ((CompactFenwickTree.init.update 2 2).update 1025 1025, 0) := by
    refine Prod.ext ?_ ?_
    · show (CompactFenwickTree.init.update 2 2).update (value_to_rank svsCE 1025) 1025
        = (CompactFenwickTree.init.update 2 2).update 1025 1025
      rw [rank_1025]
    · show (if 1 < value_to_rank svsCE 1025 then
          (0 : Int) + ((1025 : Int)
            * (CompactFenwickTree.init.update 2 2).query_count (value_to_rank svsCE 1025 - 1)
            - (CompactFenwickTree.init.update 2 2).query_sum (value_to_rank svsCE 1025 - 1))
        else (0 : Int)) = 0
      rw [rank_1025, if_pos (by norm_num : (1 : Nat) < 1025),
        show (1025 : Nat) - 1 = 1024 by norm_num, hq1024c, hq1024s]
      norm_num
  show ((2 :: 1025 :: lCE).foldl (memStep svsCE) (CompactFenwickTree.init, 0)).2 = _
  rw [List.foldl_cons, hstep1, List.foldl_cons, hstep2, hpass]
  show (0 : Int) + pairSum lCE + crossPairs [2, 1025] lCE = _
  ring

theorem pairSum_arrCE : pairSum arrCE
    = 1023 + (lCE.map (fun b => posd 2 b)).sum + (lCE.map (fun b => posd 1025 b)).sum
      + pairSum lCE := by
  show pairSum (2 :: 1025 :: lCE) = _
  rw [pairSum, pairSum, List.map_cons, List.sum_cons,
    show posd 2 1025 = 1023 by decide]
  ring

theorem crossPairs_arrCE_prefix : crossPairs [2, 1025] lCE
    = (lCE.map (fun b => posd 2 b)).sum + (lCE.map (fun b => posd 1025 b)).sum := by
  rw [show ([2, 1025] : List Int) = 2 :: 1025 :: [] by rfl, crossPairs_cons_left,
    crossPairs_cons_left, crossPairs_nil_left]
  ring

/-- On `arrCE`, the memory-optimized variant disagrees with the naive
reference — by exactly 1023. -/
theorem memopt_arrCE_ne_naive : calculate_positive_differences_memory_optimized arrCE
    ≠ calculate_positive_differences_naive arrCE := by
  rw [naive_eq_pairSum, memopt_arrCE_eq, pairSum_arrCE, crossPairs_arrCE_prefix]
  intro h
  omega

theorem chunked_arrCE : calculate_positive_differences_chunked arrCE 50000
    = calculate_positive_differences_memory_optimized arrCE := by
  rw [calculate_positive_differences_chunked, if_pos (by rw [arrCE_length]; omega)]

/-! ## Prefix states of the optimized pass -/

/-- The state (tree, running `total_sum`) of the main loop of
`calculate_positive_differences_optimized` after processing the first `p`
elements of `arr`. -/
def optPassState (arr : List Int) (p : Nat) : FenwickTree × Int :=
  (arr.take p).foldl (optStep (sorted_values arr))
    (FenwickTree.init (sorted_values arr).length, 0)

theorem optPassState_total (arr : List Int) (p : Nat) :
    (optPassState arr p).2 = pairSum (arr.take p) := by
  rw [optPassState,
    show FenwickTree.init (sorted_values arr).length
      = insertAllDense (sorted_values arr).length (rankOps (sorted_values arr) []) from rfl,
    optPass_correct arr (arr.take p) [] (fun x hx => List.mem_of_mem_take hx) (by simp) 0]
  show (0 : Int) + pairSum (arr.take p) + crossPairs [] (arr.take p) = _
  rw [crossPairs_nil_left]
  ring

theorem pairSum_take_mono (arr : List Int) (p : Nat) :
    pairSum (arr.take p) ≤ pairSum (arr.take (p + 1)) := by
  by_cases h : p < arr.length
  · rw [List.take_succ, List.getElem?_eq_getElem h]
    show _ ≤ pairSum (arr.take p ++ [arr[p]])
    rw [pairSum_append]
    have := sum_map_nonneg (arr.take p) (fun x => posd x arr[p]) (fun x => posd_nonneg x _)
    omega
  · rw [List.take_of_length_le (by omega), List.take_of_length_le (by omega)]

theorem pairSum_of_antitone : ∀ arr : List Int, arr.Pairwise (· ≥ ·) → pairSum arr = 0 := by
  intro arr
  induction arr with
  | nil => intro _; rfl
  | cons a l ih =>
    intro h
    rw [List.pairwise_cons] at h
    rw [pairSum, ih h.2]
    have hz : (l.map (fun b => posd a b)).sum = 0 := by
      refine List.sum_eq_zero fun y hy => ?_
      obtain ⟨x, hx, rfl⟩ := List.mem_map.mp hy
      have := h.1 x hx
      rw [posd, if_neg (by omega)]
    rw [hz]
    ring

/-! ## The claims -/

/-- Claim C1 (corrected).  As stated the claim is false: on `arrCE` the
memory-optimized variant disagrees with the naive reference (see
`claim1_counterexample`).  Amended claim: `optimized` equals `naive` on every
input, and `memory_optimized` equals `naive` on every input with at most
1024 distinct values. -/
theorem claim1_refinement :
    (∀ arr : List Int, calculate_positive_differences_optimized arr
        = calculate_positive_differences_naive arr)
    ∧ (∀ arr : List Int, arr.toFinset.card ≤ 1024 →
        calculate_positive_differences_memory_optimized arr
          = calculate_positive_differences_naive arr) := by
  constructor
  · intro arr
    rw [optimized_eq_pairSum, naive_eq_pairSum]
  · intro arr h
    rw [memory_optimized_eq_pairSum_of_card arr h, naive_eq_pairSum]

/-- Claim C1 counterexample: on the 1025-element input `arrCE` the two core
implementations do not both agree with the naive reference —
`memory_optimized` is off by 1023. -/
theorem claim1_counterexample :
    ¬ (calculate_positive_differences_optimized arrCE
          = calculate_positive_differences_naive arrCE
      ∧ calculate_positive_differences_memory_optimized arrCE
          = calculate_positive_differences_naive arrCE) :=
  fun h => memopt_arrCE_ne_naive h.2

/-- Claim C1 witness. -/
theorem claim1_refinement_witness :
    calculate_positive_differences_optimized [5, 1, 3, 2]
      = calculate_positive_differences_naive [5, 1, 3, 2]
    ∧ ([2, 1] : List Int).toFinset.card ≤ 1024
    ∧ calculate_positive_differences_memory_optimized [2, 1]
        = calculate_positive_differences_naive [2, 1] :=
  ⟨claim1_refinement.1 [5, 1, 3, 2], by decide, claim1_refinement.2 [2, 1] (by decide)⟩

/-- Claim C2 (corrected).  As stated the claim is false for the
`CompactFenwickTree` (see `claim2_counterexample`).  Amended claim: the
prefix-query invariant holds for the dense `FenwickTree` at every rank
`r ∈ [1, k]`, and for the `CompactFenwickTree` at every rank
`r ∈ [1, min k 1023]`. -/
theorem claim2_fenwick_invariant :
    (∀ (k : Nat) (ops : List (Nat × Int)) (r : Nat),
      (∀ p ∈ ops, 1 ≤ p.1 ∧ p.1 ≤ k) → 1 ≤ r → r ≤ k →
        (insertAllDense k ops).query_count r = ((ops.filter (fun p => p.1 ≤ r)).length : Int)
        ∧ (insertAllDense k ops).query_sum r
            = ((ops.filter (fun p => p.1 ≤ r)).map (fun p => p.2)).sum)
    ∧ (∀ (k : Nat) (ops : List (Nat × Int)) (r : Nat),
      (∀ p ∈ ops, 1 ≤ p.1 ∧ p.1 ≤ k) → 1 ≤ r → r ≤ k → r ≤ 1023 →
        (insertAllCompact ops).query_count r = ((ops.filter (fun p => p.1 ≤ r)).length : Int)
        ∧ (insertAllCompact ops).query_sum r
            = ((ops.filter (fun p => p.1 ≤ r)).map (fun p => p.2)).sum) := by
  constructor
  · intro k ops r hops h1 hr
    have hq := insertAllDense_query k ops r hr
    rw [hq.1, hq.2, sum_Ioc_rankCount r ops (fun p hp => (hops p hp).1),
      sum_Ioc_rankSum r ops (fun p hp => (hops p hp).1)]
    exact ⟨rfl, rfl⟩
  · intro k ops r hops h1 hr hr1023
    have hq := insertAllCompact_query ops r hr1023
    rw [hq.1, hq.2, sum_Ioc_rankCount r ops (fun p hp => (hops p hp).1),
      sum_Ioc_rankSum r ops (fun p hp => (hops p hp).1)]
    exact ⟨rfl, rfl⟩

/-- Claim C2 counterexample: insert the single pair `(rank 2, value 5)` into a
fresh `CompactFenwickTree` over ranks `1..1025` and query rank 1024: the
count query returns 0, not the exact count 1, because node 1024 lies beyond
the `max_idx + 1000` clamp of the update loop. -/
theorem claim2_counterexample :
    ¬ (insertAllCompact [(2, 5)]).query_count 1024
        = (([((2 : Nat), (5 : Int))].filter (fun p => p.1 ≤ 1024)).length : Int) := by
  decide

/-- Claim C2 witness. -/
theorem claim2_fenwick_invariant_witness :
    (∀ p ∈ ([(1, 10), (2, 20), (1, 5)] : List (Nat × Int)), 1 ≤ p.1 ∧ p.1 ≤ 3)
    ∧ (insertAllDense 3 [(1, 10), (2, 20), (1, 5)]).query_count 2
        = ((([(1, 10), (2, 20), (1, 5)] : List (Nat × Int)).filter
            (fun p => p.1 ≤ 2)).length : Int)
    ∧ (insertAllCompact [(1, 10), (2, 20), (1, 5)]).query_sum 2
        = ((([(1, 10), (2, 20), (1, 5)] : List (Nat × Int)).filter
            (fun p => p.1 ≤ 2)).map (fun p => p.2)).sum :=
  ⟨by decide,
   (claim2_fenwick_invariant.1 3 [(1, 10), (2, 20), (1, 5)] 2
      (by decide) (by decide) (by decide)).1,
   (claim2_fenwick_invariant.2 3 [(1, 10), (2, 20), (1, 5)] 2
      (by decide) (by decide) (by decide) (by decide)).2⟩

/-- Claim C3 (confirmed).  The rank compression maps the distinct values of
`arr` one-to-one onto `[1, k]` with `k` the number of distinct values
(`k ≤ n`), strictly order-preservingly. -/
theorem claim3_rank_compression (arr : List Int) :
    ((sorted_values arr).length = arr.toFinset.card
      ∧ (sorted_values arr).length ≤ arr.length)
    ∧ (∀ v, v ∈ arr → 1 ≤ value_to_rank (sorted_values arr) v
        ∧ value_to_rank (sorted_values arr) v ≤ (sorted_values arr).length)
    ∧ (∀ r, 1 ≤ r → r ≤ (sorted_values arr).length →
        ∃ v, v ∈ arr ∧ value_to_rank (sorted_values arr) v = r)
    ∧ (∀ v w, v ∈ arr → w ∈ arr →
        (value_to_rank (sorted_values arr) v < value_to_rank (sorted_values arr) w ↔ v < w))
    ∧ (∀ v w, v ∈ arr → w ∈ arr →
        (value_to_rank (sorted_values arr) v = value_to_rank (sorted_values arr) w ↔ v = w)) :=
  ⟨⟨sorted_values_length arr, sorted_values_length_le arr⟩,
   fun v hv => ⟨value_to_rank_pos _ v, value_to_rank_le hv⟩,
   fun _ h1 h2 => value_to_rank_surj h1 h2,
   fun _ _ hv hw => value_to_rank_lt_iff hv hw,
   fun _ _ hv hw => value_to_rank_inj hv hw⟩

/-- Claim C3 witness. -/
theorem claim3_rank_compression_witness :
    (value_to_rank (sorted_values [5, 2, 5, 9]) 2 < value_to_rank (sorted_values [5, 2, 5, 9]) 9
      ↔ (2 : Int) < 9)
    ∧ (∃ v, v ∈ ([5, 2, 5, 9] : List Int) ∧ value_to_rank (sorted_values [5, 2, 5, 9]) v = 3)
    ∧ (1 ≤ value_to_rank (sorted_values [5, 2, 5, 9]) 5
        ∧ value_to_rank (sorted_values [5, 2, 5, 9]) 5 ≤ (sorted_values [5, 2, 5, 9]).length) :=
  ⟨(claim3_rank_compression [5, 2, 5, 9]).2.2.2.1 2 9 (by decide) (by decide),
   (claim3_rank_compression [5, 2, 5, 9]).2.2.1 3 (by decide) (by decide),
   (claim3_rank_compression [5, 2, 5, 9]).2.1 5 (by decide)⟩

/-- Claim C4 (confirmed).  During the optimized pass the running `total_sum`
never decreases (equivalently, every per-element contribution
`current_val * smaller_count - smaller_sum` is non-negative), and at pass
completion it is exactly the value the function returns. -/
theorem claim4_running_total (arr : List Int) (p : Nat) :
    (optPassState arr p).2 ≤ (optPassState arr (p + 1)).2
    ∧ calculate_positive_differences_optimized arr
        = (if arr.length ≤ 1 then 0 else (optPassState arr arr.length).2) := by
  constructor
  · rw [optPassState_total, optPassState_total]
    exact pairSum_take_mono arr p
  · rw [calculate_positive_differences_optimized]
    by_cases h : arr.length ≤ 1
    · rw [if_pos h, if_pos h]
    · rw [if_neg h, if_neg h, optPassState, List.take_length]

/-- Claim C5 (confirmed).  For the empty and the one-element sequence every
implementation returns 0. -/
theorem claim5_trivial_inputs (arr : List Int) (h : arr.length ≤ 1) :
    calculate_positive_differences_optimized arr = 0
    ∧ calculate_positive_differences_memory_optimized arr = 0
    ∧ calculate_positive_differences_naive arr = 0 := by
  refine ⟨?_, ?_, ?_⟩
  · rw [optimized_eq_pairSum, pairSum_short h]
  · rw [calculate_positive_differences_memory_optimized, if_pos h]
  · rw [naive_eq_pairSum, pairSum_short h]

/-- Claim C5 witness. -/
theorem claim5_trivial_inputs_witness :
    ([7] : List Int).length ≤ 1
    ∧ calculate_positive_differences_optimized [7] = 0
    ∧ calculate_positive_differences_memory_optimized [7] = 0
    ∧ calculate_positive_differences_naive [7] = 0 :=
  ⟨by decide, (claim5_trivial_inputs [7] (by decide)).1,
   (claim5_trivial_inputs [7] (by decide)).2.1,
   (claim5_trivial_inputs [7] (by decide)).2.2⟩

/-- Claim C6 (confirmed).  A strictly decreasing sequence and an all-equal
sequence both yield 0. -/
theorem claim6_no_positive_pairs (arr : List Int) :
    (arr.Pairwise (· > ·) → calculate_positive_differences_optimized arr = 0)
    ∧ (∀ c : Int, (∀ x ∈ arr, x = c) → calculate_positive_differences_optimized arr = 0) := by
  constructor
  · intro h
    rw [optimized_eq_pairSum]
    exact pairSum_of_antitone arr (h.imp le_of_lt)
  · intro c h
    rw [optimized_eq_pairSum]
    refine pairSum_of_antitone arr (List.pairwise_of_forall_mem_list fun a ha b hb => ?_)
    rw [h a ha, h b hb]

/-- Claim C6 witness. -/
theorem claim6_no_positive_pairs_witness :
    (([5, 4, 3, 2, 1] : List Int).Pairwise (· > ·)
      ∧ calculate_positive_differences_optimized [5, 4, 3, 2, 1] = 0)
    ∧ ((∀ x ∈ ([3, 3, 3] : List Int), x = 3)
      ∧ calculate_positive_differences_optimized [3, 3, 3] = 0) :=
  ⟨⟨by decide, (claim6_no_positive_pairs [5, 4, 3, 2, 1]).1 (by decide)⟩,
   ⟨by decide, (claim6_no_positive_pairs [3, 3, 3]).2 3 (by decide)⟩⟩

/-- Claim C7 (confirmed).  The three worked examples of the specification, for
all three implementations. -/
theorem claim7_examples :
    calculate_positive_differences_optimized [1, 3, 2, 4] = 9
    ∧ calculate_positive_differences_optimized [5, 1, 3, 2] = 3
    ∧ calculate_positive_differences_optimized [1, 2, 3, 4, 5] = 20
    ∧ calculate_positive_differences_naive [1, 3, 2, 4] = 9
    ∧ calculate_positive_differences_naive [5, 1, 3, 2] = 3
    ∧ calculate_positive_differences_naive [1, 2, 3, 4, 5] = 20
    ∧ calculate_positive_differences_memory_optimized [1, 3, 2, 4] = 9
    ∧ calculate_positive_differences_memory_optimized [5, 1, 3, 2] = 3
    ∧ calculate_positive_differences_memory_optimized [1, 2, 3, 4, 5] = 20 := by
  refine ⟨?_, ?_, ?_, ?_, ?_, ?_, ?_, ?_, ?_⟩ <;> decide

/-- Claim C8 (confirmed).  A rank-0 prefix query returns 0 on both tree
classes, without reading any tree node: the query loop returns its
accumulator untouched whatever the tree contents. -/
theorem claim8_query_zero :
    (∀ ft : FenwickTree, ft.query_count 0 = 0 ∧ ft.query_sum 0 = 0)
    ∧ (∀ ft : CompactFenwickTree, ft.query_count 0 = 0 ∧ ft.query_sum 0 = 0)
    ∧ (∀ (t : Nat → Int) (fuel : Nat) (acc : Int), queryGo t fuel 0 acc = acc) := by
  have hq : ∀ (t : Nat → Int) (fuel : Nat) (acc : Int), queryGo t fuel 0 acc = acc := by
    intro t fuel acc
    cases fuel
    · rfl
    · rw [queryGo, if_neg (by omega)]
  exact ⟨fun ft => ⟨hq _ _ _, hq _ _ _⟩, fun ft => ⟨hq _ _ _, hq _ _ _⟩, hq⟩

/-- Claim C10 (corrected).  As stated (every positive `chunk_size`) the claim
is false: with the default `chunk_size = 50000` the whole of `arrCE` is one
chunk, handled by the defective memory-optimized variant (see
`claim10_counterexample`).  Amended claim: for every `chunk_size` between 1
and 1024, the chunked variant equals the naive reference on every input. -/
theorem claim10_chunked (arr : List Int) (cs : Nat) (h1 : 1 ≤ cs) (h2 : cs ≤ 1024) :
    calculate_positive_differences_chunked arr cs
      = calculate_positive_differences_naive arr := by
  rw [chunked_eq_pairSum arr cs h1 h2, naive_eq_pairSum]

/-- Claim C10 counterexample: `arrCE` with the default chunk size. -/
theorem claim10_counterexample :
    ¬ (calculate_positive_differences_chunked arrCE 50000
        = calculate_positive_differences_naive arrCE) := by
  rw [chunked_arrCE]
  exact memopt_arrCE_ne_naive

/-- Claim C10 witness. -/
theorem claim10_chunked_witness :
    1 ≤ 2 ∧ 2 ≤ 1024
    ∧ calculate_positive_differences_chunked [3, 1, 2, 5] 2
        = calculate_positive_differences_naive [3, 1, 2, 5] :=
  ⟨by decide, by decide, claim10_chunked [3, 1, 2, 5] 2 (by decide) (by decide)⟩
